import Mathlib

/-!
# Verification of the cmux snapshot-provisioning engine

A shallow embedding, in Lean 4, of the core data model and algorithms of
`scripts/snapshot.py` and `scripts/snapshot/exec.py`:

* the snapshot manifest model: `_normalize_manifest`,
  `_update_manifest_with_snapshot` (manifest versioning laws);
* the task-graph scheduler: `run_task_graph` / `_run_task_with_timing`
  (layered execution, timings, cycle diagnostics, failure propagation);
* the HTTP exec client: `HttpExecClient._run_sync` (retry with exponential
  backoff, stream-event folding, timeout handling).

Python dicts/JSON values are embedded as `JValue`; machine integers are
`Int` (Python integers are unbounded, so no wrap-around is modelled);
Python `float` timeouts/delays are embedded as `ℚ` (all values the claims
exercise are exact decimals); functions that can raise return `Option`
or carry an explicit error component.
-/

/-- A Python/JSON value, as handled by the manifest and exec-event code.
`obj` is an insertion-ordered dict (duplicate keys resolve last-wins, as
`json.loads` does).  Floats are not modelled; none of the verified code
paths require them. -/
inductive JValue where
  | null
  | bool (b : Bool)
  | int (n : Int)
  | str (s : String)
  | arr (elems : List JValue)
  | obj (fields : List (String × JValue))

/-- `d.get(key)` on a Python dict: last-wins lookup; `none` when the key is
absent (Python returns `None`) or the value is not a dict. -/
def JValue.getKey : JValue → String → Option JValue
  | .obj kvs, key => kvs.foldl (fun acc kv => if kv.1 = key then some kv.2 else acc) none
  | _, _ => none

/-- Whether the value is a Python dict (`isinstance(x, dict)`). -/
def JValue.isDict : JValue → Bool
  | .obj _ => true
  | _ => false

/-- Python iteration `for x in v`: lists yield their elements, strings yield
their one-character substrings, dicts yield their keys; other values raise
`TypeError` (modelled as `none`). -/
def pyIter : JValue → Option (List JValue)
  | .arr xs => some xs
  | .str s => some (s.toList.map fun c => .str c.toString)
  | .obj kvs => some (kvs.map fun kv => .str kv.1)
  | _ => none

/-- `_coalesce_str(value, default)` from `scripts/snapshot.py`: keep the
value when it is a non-empty `str`, otherwise the default. -/
def _coalesce_str (value : Option JValue) (default : String) : String :=
  match value with
  | some (.str s) => if s = "" then default else s
  | _ => default

/-- Python `int(v)` on the value shapes `JValue` can hold: ints stay, bools
become 0/1, strings parse as decimal integers (`String.toInt?` stands in
for Python's integer literal parser), everything else raises (`none`). -/
def pyIntCast : JValue → Option Int
  | .int n => some n
  | .bool b => some (if b then 1 else 0)
  | .str s => s.toInt?
  | _ => none

/-- `_coalesce_int(value, default)` from `scripts/snapshot.py`: `int(value)`
with the default on any exception. -/
def _coalesce_int (value : Option JValue) (default : Int) : Int :=
  match value with
  | some v => (pyIntCast v).getD default
  | none => default

/-- `CURRENT_MANIFEST_SCHEMA_VERSION` from `scripts/snapshot.py`. -/
def CURRENT_MANIFEST_SCHEMA_VERSION : Int := 1

/-- The `MorphSnapshotVersionEntry` TypedDict. -/
structure MorphSnapshotVersionEntry where
  version : Int
  snapshotId : String
  capturedAt : String
deriving Repr, DecidableEq

/-- The `MorphSnapshotPresetEntry` TypedDict (`description` is NotRequired,
hence an `Option`). -/
structure MorphSnapshotPresetEntry where
  presetId : String
  label : String
  cpu : String
  memory : String
  disk : String
  versions : List MorphSnapshotVersionEntry
  description : Option String
deriving Repr, DecidableEq

/-- The `MorphSnapshotManifestEntry` TypedDict. -/
structure MorphSnapshotManifestEntry where
  schemaVersion : Int
  updatedAt : String
  presets : List MorphSnapshotPresetEntry
deriving Repr, DecidableEq

/-- Stable insertion of a version entry into a list sorted ascending by
`version` (ties keep the earlier element first, as Python's stable sort). -/
def insertByVersion (x : MorphSnapshotVersionEntry) :
    List MorphSnapshotVersionEntry → List MorphSnapshotVersionEntry
  | [] => [x]
  | y :: ys => if x.version ≤ y.version then x :: y :: ys else y :: insertByVersion x ys

/-- `versions.sort(key=lambda entry: entry["version"])`: the stable sort by
`version`.  Python's timsort and stable insertion sort compute the same
function, because the stable sort by a key is unique. -/
def sortByVersion : List MorphSnapshotVersionEntry → List MorphSnapshotVersionEntry
  | [] => []
  | x :: xs => insertByVersion x (sortByVersion xs)

/-- One iteration of the inner `for version in preset.get("versions", [])`
body: non-dicts are skipped (`none`), dicts are coerced field by field.
`now` stands for `_iso_timestamp()` (the current UTC time, always a
non-empty string in Python). -/
def normVersion (now : String) (j : JValue) : Option MorphSnapshotVersionEntry :=
  match j with
  | .obj _ => some
      { version := _coalesce_int (j.getKey "version") 0
        snapshotId := _coalesce_str (j.getKey "snapshotId") ""
        capturedAt := _coalesce_str (j.getKey "capturedAt") now }
  | _ => none

/-- One iteration of the outer `for preset in manifest.get("presets", [])`
body.  Outer `none` = Python raised (the `versions` value is not iterable);
`some none` = entry skipped (not a dict); `some (some e)` = entry kept. -/
def normPreset (now : String) (j : JValue) : Option (Option MorphSnapshotPresetEntry) :=
  match j with
  | .obj _ =>
    match pyIter ((j.getKey "versions").getD (.arr [])) with
    | none => none
    | some rawVersions =>
      some (some
        { presetId := _coalesce_str (j.getKey "presetId") ""
          label := _coalesce_str (j.getKey "label") ""
          cpu := _coalesce_str (j.getKey "cpu") ""
          memory := _coalesce_str (j.getKey "memory") ""
          disk := _coalesce_str (j.getKey "disk") ""
          versions := sortByVersion (rawVersions.filterMap (normVersion now))
          description :=
            match j.getKey "description" with
            | some (.str s) => if s = "" then none else some s
            | _ => none })
  | _ => some none

/-- The presets loop of `_normalize_manifest`; fails when any kept entry
makes Python raise. -/
def normPresetList (now : String) : List JValue → Option (List MorphSnapshotPresetEntry)
  | [] => some []
  | j :: js =>
    match normPreset now j with
    | none => none
    | some none => normPresetList now js
    | some (some e) => (normPresetList now js).map (e :: ·)

/-- `_normalize_manifest` from `scripts/snapshot.py`.  `none` models the
exceptions the Python function can raise: `.get` on a non-dict manifest,
or iterating a non-iterable `presets` / `versions` value. -/
def _normalize_manifest (now : String) (manifest : JValue) :
    Option MorphSnapshotManifestEntry :=
  match manifest with
  | .obj _ =>
    match pyIter ((manifest.getKey "presets").getD (.arr [])) with
    | none => none
    | some rawPresets =>
      (normPresetList now rawPresets).map fun presets =>
        { schemaVersion :=
            _coalesce_int (manifest.getKey "schemaVersion") CURRENT_MANIFEST_SCHEMA_VERSION
          updatedAt := _coalesce_str (manifest.getKey "updatedAt") now
          presets := presets }
  | _ => none

/-- Rendering of a version entry back to the dict the Python code builds
(same keys, same order). -/
def MorphSnapshotVersionEntry.toJValue (v : MorphSnapshotVersionEntry) : JValue :=
  .obj [("version", .int v.version), ("snapshotId", .str v.snapshotId),
        ("capturedAt", .str v.capturedAt)]

/-- Rendering of a preset entry: the six mandatory keys in construction
order, with `description` appended last when present (as the Python code
assigns it after building the dict). -/
def MorphSnapshotPresetEntry.toJValue (p : MorphSnapshotPresetEntry) : JValue :=
  .obj ([("presetId", .str p.presetId), ("label", .str p.label), ("cpu", .str p.cpu),
         ("memory", .str p.memory), ("disk", .str p.disk),
         ("versions", .arr (p.versions.map MorphSnapshotVersionEntry.toJValue))] ++
        (match p.description with
         | some d => [("description", .str d)]
         | none => []))

/-- Rendering of a whole manifest. -/
def MorphSnapshotManifestEntry.toJValue (m : MorphSnapshotManifestEntry) : JValue :=
  .obj [("schemaVersion", .int m.schemaVersion), ("updatedAt", .str m.updatedAt),
        ("presets", .arr (m.presets.map MorphSnapshotPresetEntry.toJValue))]

/-- `_normalize_manifest` as a JSON-to-JSON transformation (the Python
function maps dicts to dicts). -/
def normalizeManifestJ (now : String) (x : JValue) : Option JValue :=
  (_normalize_manifest now x).map MorphSnapshotManifestEntry.toJValue

/-- The fields of `SnapshotPresetPlan` the manifest update reads. -/
structure SnapshotPresetPlan where
  preset_id : String
  label : String
  cpu_display : String
  memory_display : String
  disk_display : String
deriving Repr, DecidableEq

/-- `_coalesce_str` specialised to a string that is known to be present:
keep it when non-empty, else the default. -/
def cstr (s default : String) : String := if s = "" then default else s

/-- `_normalize_manifest` restricted to an input that is already a rendered
version entry: `version` is an int, the string fields re-coalesce. -/
def normVersionT (now : String) (v : MorphSnapshotVersionEntry) :
    MorphSnapshotVersionEntry :=
  { version := v.version
    snapshotId := cstr v.snapshotId ""
    capturedAt := cstr v.capturedAt now }

/-- `_normalize_manifest` restricted to a rendered preset entry. -/
def normPresetT (now : String) (p : MorphSnapshotPresetEntry) :
    MorphSnapshotPresetEntry :=
  { presetId := cstr p.presetId ""
    label := cstr p.label ""
    cpu := cstr p.cpu ""
    memory := cstr p.memory ""
    disk := cstr p.disk ""
    versions := sortByVersion (p.versions.map (normVersionT now))
    description :=
      match p.description with
      | some s => if s = "" then none else some s
      | none => none }

/-- `_normalize_manifest` restricted to a rendered manifest (the shape the
function receives from `_load_manifest` and inside
`_update_manifest_with_snapshot`, where its argument is a
`MorphSnapshotManifestEntry`).  `normalize_manifest_typed` below proves this
agrees with the `JValue`-level function on rendered manifests. -/
def normManifestT (now : String) (m : MorphSnapshotManifestEntry) :
    MorphSnapshotManifestEntry :=
  { schemaVersion := m.schemaVersion
    updatedAt := cstr m.updatedAt now
    presets := m.presets.map (normPresetT now) }

/-- `max(entry["version"] for entry in versions)` over a non-empty list. -/
def maxVersionNum (v : MorphSnapshotVersionEntry)
    (vs : List MorphSnapshotVersionEntry) : Int :=
  vs.foldl (fun acc e => max acc e.version) v.version

/-- The fresh entry `_update_manifest_with_snapshot` appends when no
existing preset matches (`versions` starts empty, no `description`). -/
def freshPresetEntry (preset : SnapshotPresetPlan) : MorphSnapshotPresetEntry :=
  { presetId := preset.preset_id
    label := preset.label
    cpu := preset.cpu_display
    memory := preset.memory_display
    disk := preset.disk_display
    versions := []
    description := none }

/-- `next_version = 1`, or `max(entry["version"] for entry in versions) + 1`
when the entry already has versions. -/
def nextVersion : List MorphSnapshotVersionEntry → Int
  | [] => 1
  | v :: vs => maxVersionNum v vs + 1

/-- The in-place mutation `_update_manifest_with_snapshot` performs on the
located (or freshly appended) preset entry: refresh the display fields,
append the next version, re-sort. -/
def bumpPresetEntry (e : MorphSnapshotPresetEntry) (preset : SnapshotPresetPlan)
    (snapshot_id captured_at : String) : MorphSnapshotPresetEntry :=
  { e with
    label := preset.label
    cpu := preset.cpu_display
    memory := preset.memory_display
    disk := preset.disk_display
    versions :=
      sortByVersion (e.versions ++
        [{ version := nextVersion e.versions, snapshotId := snapshot_id,
           capturedAt := captured_at }]) }

/-- The search loop of `_update_manifest_with_snapshot`: bump the first
entry whose `presetId` matches, or append a fresh bumped entry at the end. -/
def updatePresetList (preset : SnapshotPresetPlan) (snapshot_id captured_at : String) :
    List MorphSnapshotPresetEntry → List MorphSnapshotPresetEntry
  | [] => [bumpPresetEntry (freshPresetEntry preset) preset snapshot_id captured_at]
  | e :: es =>
    if e.presetId = preset.preset_id then
      bumpPresetEntry e preset snapshot_id captured_at :: es
    else
      e :: updatePresetList preset snapshot_id captured_at es

/-- `_update_manifest_with_snapshot` from `scripts/snapshot.py`: normalize,
locate-or-append the preset entry, append the next version, re-sort, and
stamp `schemaVersion` / `updatedAt`. -/
def _update_manifest_with_snapshot (now : String) (manifest : MorphSnapshotManifestEntry)
    (preset : SnapshotPresetPlan) (snapshot_id captured_at : String) :
    MorphSnapshotManifestEntry :=
  let updated := normManifestT now manifest
  { schemaVersion := CURRENT_MANIFEST_SCHEMA_VERSION
    updatedAt := captured_at
    presets := updatePresetList preset snapshot_id captured_at updated.presets }

/-- `versions` sorted ascending by `version`. -/
def versionsSortedAsc (vs : List MorphSnapshotVersionEntry) : Prop :=
  List.Chain' (fun a b => a.version ≤ b.version) vs

/-- A `TaskDefinition` from `scripts/snapshot.py`.  The task body `func` is
embedded by its observable behaviour for one provisioning context:
`outcome = none` means `await task.func(ctx)` returns normally, and
`outcome = some msg` means it raises an exception carrying `msg`. -/
structure TaskDefinition where
  name : String
  dependencies : List String
  outcome : Option String
deriving Repr, DecidableEq

/-- `TaskRegistry`: an insertion-ordered `name → TaskDefinition` dict
(Python dicts preserve insertion order; registration rejects duplicate
names, so the list has pairwise-distinct names). -/
structure TaskRegistry where
  _tasks : List TaskDefinition
deriving Repr, DecidableEq

/-- The `TaskRegistry.task` decorator: register a definition, rejecting an
already-present name (`ValueError`, modelled as `none`). -/
def TaskRegistry.register (r : TaskRegistry) (t : TaskDefinition) : Option TaskRegistry :=
  if r._tasks.any (fun t₀ => t₀.name = t.name) then none
  else some ⟨r._tasks ++ [t]⟩

/-- The `tasks` property: `dict(self._tasks)` — a fresh copy of the
internal map.  In this embedding the copy semantics is what justifies the
scheduler below operating on a list value: the pops the scheduler performs
touch only the copy, never the registry's own `_tasks`. -/
def TaskRegistry.tasks (r : TaskRegistry) : List TaskDefinition := r._tasks

/-- `all(dep in completed for dep in task.dependencies)`. -/
def taskReady (completed : List String) (t : TaskDefinition) : Bool :=
  t.dependencies.all (completed.contains ·)

/-- The first task of a layer whose body raises, with its message.
`asyncio.gather` without `return_exceptions` starts every coroutine of the
layer and propagates exactly one exception to the awaiter (the others are
never retrieved); which one is a real-time race, determinised here as the
first failing task in ready-list order. -/
def firstFailure : List TaskDefinition → Option (String × String)
  | [] => none
  | t :: ts =>
    match t.outcome with
    | some msg => some (t.name, msg)
    | none => firstFailure ts

/-- How a `run_task_graph` call ends: normal return, the
`RuntimeError("Dependency cycle detected: ...")` carrying the remaining
task names, or the single task exception propagated by `asyncio.gather`. -/
inductive SchedError where
  | cycle (names : List String)
  | taskFailure (taskName msg : String)
deriving Repr, DecidableEq

/-- Observable outcome of `run_task_graph`: the labels appended to
`ctx.timings` (`task:<name>` inside `_run_task_with_timing`,
`layer:<a+b+…>` after each layer), the start events (task name paired with
the `completed` set at the moment its layer was dispatched), the final
`completed` set, and the error if the call raised. -/
structure RunGraphResult where
  timings : List String
  starts : List (String × List String)
  completed : List String
  error : Option SchedError
deriving Repr, DecidableEq

/-- The `while remaining:` loop of `run_task_graph`.  Within a layer,
`asyncio.gather` runs all ready tasks; per-task `task:<name>` timings are
recorded by `_run_task_with_timing` for the tasks whose bodies return
(completion order within a layer is a race; list order is the
determinisation — label multiplicities and cross-layer order are
interleaving-independent).  On a failing layer the layer label is not
recorded, `completed`/`remaining` are not updated, and the exception
propagates; no further layer is dispatched. -/
def runTaskGraphAux (remaining : List TaskDefinition) (completed : List String)
    (timings : List String) (starts : List (String × List String)) : RunGraphResult :=
  if hrem : remaining = [] then
    { timings := timings, starts := starts, completed := completed, error := none }
  else
    let ready := remaining.filter (taskReady completed)
    if hready : ready = [] then
      { timings := timings, starts := starts, completed := completed,
        error := some (.cycle (remaining.map (·.name))) }
    else
      let layerStarts := ready.map fun t => (t.name, completed)
      let taskTimings := ready.filterMap fun t =>
        if t.outcome = none then some ("task:" ++ t.name) else none
      match firstFailure ready with
      | some (n, msg) =>
        { timings := timings ++ taskTimings, starts := starts ++ layerStarts,
          completed := completed, error := some (.taskFailure n msg) }
      | none =>
        let layerLabel := "layer:" ++ String.intercalate "+" (ready.map (·.name))
        runTaskGraphAux (remaining.filter (fun t => !taskReady completed t))
          (completed ++ ready.map (·.name))
          (timings ++ taskTimings ++ [layerLabel])
          (starts ++ layerStarts)
termination_by remaining.length
decreasing_by
  have h := List.length_eq_length_filter_add (l := remaining) (taskReady completed)
  have hpos : 0 < (remaining.filter (taskReady completed)).length :=
    List.length_pos.mpr hready
  omega

/-- `run_task_graph(registry, ctx)`: `remaining = registry.tasks` (a fresh
copy), `completed = set()`, then the layer loop. -/
def run_task_graph (registry : TaskRegistry) : RunGraphResult :=
  runTaskGraphAux registry.tasks [] [] []

/-- Dependencies of a registered name (first match, as a dict holds at most
one entry per name); unregistered names have none. -/
def depsOf (tasks : List TaskDefinition) (n : String) : List String :=
  match tasks.find? (fun t => t.name = n) with
  | some t => t.dependencies
  | none => []

/-- `a` reaches `b` through 1..k dependency edges. -/
def reachesIn (tasks : List TaskDefinition) : Nat → String → String → Bool
  | 0, _, _ => false
  | k + 1, a, b => (depsOf tasks a).any fun d => d = b || reachesIn tasks k d b

/-- The name lies on a dependency cycle (it reaches itself through at least
one edge; `tasks.length` edges suffice for any cycle). -/
def onCycle (tasks : List TaskDefinition) (n : String) : Bool :=
  reachesIn tasks tasks.length n n

/-- The dependency graph of the task list contains a cycle. -/
def hasCycle (tasks : List TaskDefinition) : Bool :=
  tasks.any fun t => onCycle tasks t.name

/-- Every dependency of every task names a registered task. -/
def depsClosed (tasks : List TaskDefinition) : Prop :=
  ∀ t ∈ tasks, ∀ d ∈ t.dependencies, ∃ t' ∈ tasks, t'.name = d

/-- The task-body errors a `run_task_graph` caller can observe: the single
exception `asyncio.gather` propagated, if any. -/
def surfacedErrors (r : RunGraphResult) : List String :=
  match r.error with
  | some (.taskFailure _ msg) => [msg]
  | _ => []

/-- The `Command` type of `scripts/snapshot/_types.py`: a shell script
string or an argv vector. -/
inductive Command where
  | shell (script : String)
  | argv (parts : List String)
deriving Repr, DecidableEq

/-- `shell_command` from `scripts/snapshot/exec.py`: a shell script is
prefixed with `set -euo pipefail` and wrapped in `bash -lc`; an argv vector
passes through. -/
def shell_command : Command → List String
  | .shell script => ["bash", "-lc", "set -euo pipefail\n" ++ script]
  | .argv parts => parts

/-- The characters `shlex.quote` leaves unquoted (Python's
`_find_unsafe` word characters). -/
def shlexSafeChar (c : Char) : Bool :=
  c.isAlphanum || c = '_' || c = '@' || c = '%' || c = '+' || c = '=' ||
    c = ':' || c = ',' || c = '.' || c = '/' || c = '-'

/-- `shlex.quote`: safe non-empty words pass through; anything else is
single-quoted with embedded single quotes escaped as `'"'"'`. -/
def shlexQuote (s : String) : String :=
  if s ≠ "" ∧ s.toList.all shlexSafeChar then s
  else "\x27" ++ s.replace "\x27" "\x27\"\x27\"\x27" ++ "\x27"

/-- `shlex.join`: space-joined quoted parts. -/
def shlexJoin (parts : List String) : String :=
  String.intercalate " " (parts.map shlexQuote)

/-- Python `int(q)` on a float/decimal value: truncation toward zero. -/
def pyInt (q : ℚ) : Int :=
  q.num.tdiv (q.den : Int)

/-- What `_run_sync` computes before its attempt loop: the `command`
payload string, the optional `timeout_ms` payload field
(`max(int(timeout * 1000), 1)`), and the HTTP read timeout passed to
`urlopen` (`max(timeout + 5, 30.0)`).  The same request is sent on every
attempt. -/
structure ExecRequest where
  command_str : String
  timeout_ms : Option Int
  request_timeout : Option ℚ
deriving Repr, DecidableEq

/-- Lines 118–128 of `scripts/snapshot/exec.py` (`exec_cmd`, `payload`,
`request_timeout`). -/
def mkExecRequest (command : Command) (timeout : Option ℚ) : ExecRequest :=
  { command_str := shlexJoin (shell_command command)
    timeout_ms := timeout.map fun t => max (pyInt (t * 1000)) 1
    request_timeout := timeout.map fun t => max (t + 5) 30 }

/-- `TRANSIENT_HTTP_CODES` from `scripts/snapshot/exec.py`. -/
def TRANSIENT_HTTP_CODES : List Nat := [502, 503, 504]

/-- One line of the streaming response body, after newline framing:
either a string `json.loads` accepts (with its parse) or one it rejects. -/
inductive StreamLine where
  | parsed (raw : String) (j : JValue)
  | invalid (raw : String)

/-- How one `urllib.request.urlopen` call inside the attempt loop ends:
a response object (status plus body lines), an `HTTPError` with a status
code, or a connection-level `URLError`. -/
inductive AttemptOutcome where
  | response (status : Nat) (lines : List StreamLine)
  | httpError (code : Nat)
  | urlError (msg : String)

/-- The `for attempt in range(max_retries)` loop of `_run_sync`:
transient HTTP codes (502/503/504) sleep `initial_delay * 2**attempt`
and retry while attempts remain; any other `HTTPError`, and every
`URLError`, raises immediately; the loop's `else` clause raises after the
budget is exhausted.  Returns the response that broke the loop (or the
raised message) together with the list of back-off sleeps performed. -/
def attemptLoop (outcomes : Nat → AttemptOutcome) (initial_delay : ℚ)
    (max_retries : Nat) (attempt : Nat) (delays : List ℚ) :
    Except String (Nat × List StreamLine) × List ℚ :=
  if attempt < max_retries then
    match outcomes attempt with
    | .response status lines => (.ok (status, lines), delays)
    | .httpError code =>
      if code ∈ TRANSIENT_HTTP_CODES ∧ attempt < max_retries - 1 then
        attemptLoop outcomes initial_delay max_retries (attempt + 1)
          (delays ++ [initial_delay * 2 ^ attempt])
      else
        (.error ("exec service request failed: HTTP " ++ toString code), delays)
    | .urlError msg =>
      (.error ("exec service request failed: " ++ msg), delays)
  else
    (.error ("exec service request failed after " ++ toString max_retries ++ " retries"),
     delays)
termination_by max_retries - attempt

/-- Python `str(x)` for the value shapes an event field can hold.
Containers render in Python's repr style; the precise container/quote
rendering is inessential to the claims (only scalar `data` fields are
ever compared). -/
def pyStr : JValue → String
  | .null => "None"
  | .bool b => if b then "True" else "False"
  | .int n => toString n
  | .str s => s
  | .arr xs => "[" ++ String.intercalate ", " (xs.attach.map fun x => pyStr x.1) ++ "]"
  | .obj kvs =>
    "\x7b" ++
      String.intercalate ", "
        (kvs.attach.map fun kv => kv.1.1 ++ ": " ++ pyStr kv.1.2) ++ "\x7d"
termination_by j => sizeOf j
decreasing_by
  · simp_wf
    have := List.sizeOf_lt_of_mem x.2
    omega
  · simp_wf
    obtain ⟨⟨k, v⟩, hmem⟩ := kv
    have := List.sizeOf_lt_of_mem hmem
    simp only [Prod.mk.sizeOf_spec] at this
    simp only []
    omega

/-- Python `str.splitlines` restricted to `\n` separators (the only ones
the exec daemon emits). -/
def pySplitlines (s : String) : List String :=
  if s = "" then []
  else
    let parts := s.splitOn "\n"
    if parts.getLast? = some "" then parts.dropLast else parts

/-- `int(str(event.get("code", 0)))` with the `(TypeError, ValueError)`
handler: non-integer exit payloads become 1. -/
def parseExitCode (v : JValue) : Int :=
  ((pyStr v).toInt?).getD 1

/-- Accumulator of the streaming read loop: the stdout/stderr part lists,
the exit code seen so far, the console lines emitted, and whether the loop
raised `AttributeError` (a line that is valid JSON but not an object makes
`event.get` raise, which `_run_sync` does not catch). -/
structure StreamState where
  stdout_parts : List String
  stderr_parts : List String
  exit_code : Option Int
  console : List String
  crashed : Bool
deriving Repr, DecidableEq

def initStreamState : StreamState :=
  { stdout_parts := [], stderr_parts := [], exit_code := none, console := [], crashed := false }

/-- The body of `for raw_line in response:` in `_run_sync`: malformed JSON
and unknown event types are recorded as stderr noise; `stdout` / `stderr`
frames accumulate data and mirror each of its lines to the console;
`exit` parses the code; `error` appends the message to stderr. -/
def processStreamLine (label : String) (st : StreamState) (l : StreamLine) : StreamState :=
  if st.crashed then st
  else
    match l with
    | .invalid raw =>
      { st with
        stderr_parts := st.stderr_parts ++ ["invalid exec response: " ++ raw]
        console := st.console ++ ["[" ++ label ++ "][stderr] invalid exec response: " ++ raw] }
    | .parsed raw j =>
      match j with
      | .obj _ =>
        match j.getKey "type" with
        | some (.str "stdout") =>
          let data := pyStr ((j.getKey "data").getD (.str ""))
          { st with
            stdout_parts := st.stdout_parts ++ [data]
            console := st.console ++
              (pySplitlines data).map (fun line => "[" ++ label ++ "] " ++ line) }
        | some (.str "stderr") =>
          let data := pyStr ((j.getKey "data").getD (.str ""))
          { st with
            stderr_parts := st.stderr_parts ++ [data]
            console := st.console ++
              (pySplitlines data).map (fun line => "[" ++ label ++ "][stderr] " ++ line) }
        | some (.str "exit") =>
          { st with exit_code := some (parseExitCode ((j.getKey "code").getD (.int 0))) }
        | some (.str "error") =>
          let message := pyStr ((j.getKey "message").getD (.str ""))
          { st with
            stderr_parts := st.stderr_parts ++ [message]
            console := st.console ++ ["[" ++ label ++ "][stderr] " ++ message] }
        | _ =>
          { st with
            stderr_parts := st.stderr_parts ++ ["unknown event type: " ++ raw]
            console := st.console ++ ["[" ++ label ++ "][stderr] unknown event: " ++ raw] }
      | _ => { st with crashed := true }

/-- `InstanceExecResponse` (the SDK result type `_run_sync` returns). -/
structure InstanceExecResponse where
  exit_code : Int
  stdout : String
  stderr : String
deriving Repr, DecidableEq

/-- Python `str.strip()` / `str.rstrip()` (ASCII whitespace). -/
def pyStrip (s : String) : String := s.trim

def pyRstrip (s : String) : String := s.dropRightWhile Char.isWhitespace

/-- The tail of `_run_sync` after the read loop: a missing exit code warns
and becomes success; a non-zero exit raises with label, code and trimmed
stdout/stderr. -/
def finalizeStream (label : String) (st : StreamState) :
    Except String InstanceExecResponse × List String :=
  if st.crashed then
    (.error "AttributeError: event is not an object", st.console)
  else
    let stdout_text := String.join st.stdout_parts
    let stderr_text := String.join st.stderr_parts
    let (exit_code, console) :=
      match st.exit_code with
      | none =>
        (0, st.console ++
          ["[" ++ label ++ "] Warning: exec service did not report exit code, assuming success"])
      | some code => (code, st.console)
    if exit_code = 0 then
      (.ok { exit_code := exit_code, stdout := stdout_text, stderr := stderr_text }, console)
    else
      let error_parts := [label ++ " failed with exit code " ++ toString exit_code] ++
        (if pyStrip stdout_text ≠ "" then ["stdout:\n" ++ pyRstrip stdout_text] else []) ++
        (if pyStrip stderr_text ≠ "" then ["stderr:\n" ++ pyRstrip stderr_text] else [])
      (.error (String.intercalate "\n" error_parts), console)

/-- Everything `HttpExecClient._run_sync` produces that the caller or the
operator can observe. -/
structure RunSyncResult where
  request : ExecRequest
  result : Except String InstanceExecResponse
  delays : List ℚ
  console : List String

/-- `HttpExecClient._run_sync` from `scripts/snapshot/exec.py`: build the
request once, run the attempt loop, check the 200 status, fold the
body lines, finalize.  `outcomes` gives the result of the `urlopen` call
on each attempt (the environment of the call).  The retry console line
(`HTTP <code> error, retrying in …`) is represented by the `delays` list. -/
def HttpExecClient_run_sync (label : String) (command : Command) (timeout : Option ℚ)
    (outcomes : Nat → AttemptOutcome) (max_retries : Nat := 3)
    (initial_delay : ℚ := 1) : RunSyncResult :=
  let request := mkExecRequest command timeout
  match attemptLoop outcomes initial_delay max_retries 0 [] with
  | (.error e, delays) =>
    { request := request, result := .error e, delays := delays, console := [] }
  | (.ok (status, lines), delays) =>
    if status ≠ 200 then
      { request := request
        result := .error ("exec service returned status " ++ toString status)
        delays := delays, console := [] }
    else
      let st := lines.foldl (processStreamLine label) initStreamState
      let (result, console) := finalizeStream label st
      { request := request, result := result, delays := delays, console := console }

theorem contains_iff_mem {l : List String} {a : String} : l.contains a = true ↔ a ∈ l := by
  simp [List.contains, List.elem_iff]

theorem chain'_insertByVersion {x : MorphSnapshotVersionEntry}
    {l : List MorphSnapshotVersionEntry}
    (h : List.Chain' (fun a b => a.version ≤ b.version) l) :
    List.Chain' (fun a b => a.version ≤ b.version) (insertByVersion x l) := by
  induction l with
  | nil => simp [insertByVersion]
  | cons y ys ih =>
    rw [insertByVersion]
    by_cases hxy : x.version ≤ y.version
    · rw [if_pos hxy]
      exact List.chain'_cons.mpr ⟨hxy, h⟩
    · have hy : y.version ≤ x.version := le_of_not_le hxy
      rw [if_neg hxy]
      refine List.chain'_cons'.mpr ⟨?_, ih h.tail⟩
      intro z hz
      cases ys with
      | nil =>
        simp [insertByVersion] at hz
        subst hz
        exact hy
      | cons w ws =>
        rw [insertByVersion] at hz
        by_cases hxw : x.version ≤ w.version
        · rw [if_pos hxw] at hz
          simp at hz
          subst hz
          exact hy
        · rw [if_neg hxw] at hz
          simp at hz
          subst hz
          exact (List.chain'_cons.mp h).1

theorem sortByVersion_sorted (l : List MorphSnapshotVersionEntry) :
    List.Chain' (fun a b => a.version ≤ b.version) (sortByVersion l) := by
  induction l with
  | nil => simp [sortByVersion]
  | cons x xs ih => exact chain'_insertByVersion ih

theorem sortByVersion_eq_self {l : List MorphSnapshotVersionEntry}
    (h : List.Chain' (fun a b => a.version ≤ b.version) l) : sortByVersion l = l := by
  induction l with
  | nil => rfl
  | cons x xs ih =>
    rw [sortByVersion, ih h.tail]
    cases xs with
    | nil => rfl
    | cons y ys => simp [insertByVersion, (List.chain'_cons.mp h).1]

theorem sortByVersion_idem (l : List MorphSnapshotVersionEntry) :
    sortByVersion (sortByVersion l) = sortByVersion l :=
  sortByVersion_eq_self (sortByVersion_sorted l)

theorem cstr_empty_default (s : String) : cstr s "" = s := by
  rw [cstr]; split <;> simp_all

theorem cstr_of_ne {s : String} (d : String) (h : s ≠ "") : cstr s d = s := by
  rw [cstr, if_neg h]

theorem cstr_ne_empty (s : String) {d : String} (hd : d ≠ "") : cstr s d ≠ "" := by
  rw [cstr]; split
  · exact hd
  · assumption

theorem coalesce_str_ne_empty (v : Option JValue) {d : String} (hd : d ≠ "") :
    _coalesce_str v d ≠ "" := by
  rcases v with _ | j
  · simpa [_coalesce_str] using hd
  · cases j <;> try simpa [_coalesce_str] using hd
    case str s =>
      simp only [_coalesce_str]
      split
      · exact hd
      · assumption

theorem coalesce_str_str (s d : String) : _coalesce_str (some (.str s)) d = cstr s d := rfl

theorem normVersion_toJValue (now : String) (v : MorphSnapshotVersionEntry) :
    normVersion now v.toJValue = some (normVersionT now v) := rfl

theorem filterMap_normVersion_toJValue (now : String)
    (l : List MorphSnapshotVersionEntry) :
    List.filterMap (normVersion now ∘ MorphSnapshotVersionEntry.toJValue) l =
      l.map (normVersionT now) := by
  induction l with
  | nil => rfl
  | cons v vs ih => simp [List.filterMap_cons, Function.comp, normVersion_toJValue, ih]

theorem normPreset_toJValue (now : String) (p : MorphSnapshotPresetEntry) :
    normPreset now p.toJValue = some (some (normPresetT now p)) := by
  rcases hd : p.description with _ | s <;>
    simp [MorphSnapshotPresetEntry.toJValue, hd, normPreset, JValue.getKey, pyIter,
      normPresetT, coalesce_str_str, filterMap_normVersion_toJValue]

theorem normPresetList_toJValue (now : String) (l : List MorphSnapshotPresetEntry) :
    normPresetList now (l.map MorphSnapshotPresetEntry.toJValue) =
      some (l.map (normPresetT now)) := by
  induction l with
  | nil => rfl
  | cons p ps ih => simp [normPresetList, normPreset_toJValue, ih]

/-- On a rendered manifest, the `JValue`-level `_normalize_manifest` cannot
raise and agrees with the typed re-normalization `normManifestT`. -/
theorem normalize_manifest_typed (now : String) (m : MorphSnapshotManifestEntry) :
    _normalize_manifest now m.toJValue = some (normManifestT now m) := by
  simp [MorphSnapshotManifestEntry.toJValue, _normalize_manifest, JValue.getKey, pyIter,
    normPresetList_toJValue, normManifestT, coalesce_str_str, _coalesce_int, pyIntCast]

theorem insertByVersion_perm (x : MorphSnapshotVersionEntry)
    (l : List MorphSnapshotVersionEntry) : (insertByVersion x l).Perm (x :: l) := by
  induction l with
  | nil => rfl
  | cons y ys ih =>
    rw [insertByVersion]
    by_cases hxy : x.version ≤ y.version
    · rw [if_pos hxy]
    · rw [if_neg hxy]
      exact (ih.cons y).trans (List.Perm.swap x y ys)

theorem sortByVersion_perm (l : List MorphSnapshotVersionEntry) :
    (sortByVersion l).Perm l := by
  induction l with
  | nil => rfl
  | cons x xs ih => exact (insertByVersion_perm x (sortByVersion xs)).trans (ih.cons x)

theorem mem_sortByVersion {v : MorphSnapshotVersionEntry}
    {l : List MorphSnapshotVersionEntry} : v ∈ sortByVersion l ↔ v ∈ l :=
  (sortByVersion_perm l).mem_iff

/-- The shape every preset entry produced by `_normalize_manifest` has. -/
def PresetNormalized (p : MorphSnapshotPresetEntry) : Prop :=
  p.description ≠ some "" ∧
  sortByVersion p.versions = p.versions ∧
  ∀ v ∈ p.versions, v.capturedAt ≠ ""

/-- The shape every manifest produced by `_normalize_manifest` has (for a
non-empty timestamp, which `_iso_timestamp()` always is). -/
def ManifestNormalized (m : MorphSnapshotManifestEntry) : Prop :=
  m.updatedAt ≠ "" ∧ ∀ p ∈ m.presets, PresetNormalized p

theorem normPreset_normalized {now : String} {j : JValue} {p : MorphSnapshotPresetEntry}
    (hn : now ≠ "") (h : normPreset now j = some (some p)) : PresetNormalized p := by
  rcases j with _ | _ | _ | _ | _ | kvs <;> simp [normPreset] at h
  rcases hit : pyIter ((JValue.obj kvs).getKey "versions" |>.getD (.arr [])) with _ | raws
  · rw [hit] at h; simp at h
  · rw [hit] at h
    simp at h
    refine ⟨?_, ?_, ?_⟩
    · rw [← h]
      split
      · split
        · simp
        · simp
          intro heq
          simp_all
      · simp
    · rw [← h]
      exact sortByVersion_idem _
    · intro v hv
      rw [← h] at hv
      simp only [mem_sortByVersion, List.mem_filterMap] at hv
      obtain ⟨j', _, hj'⟩ := hv
      rcases j' with _ | _ | _ | _ | _ | kvs' <;> simp [normVersion] at hj'
      rw [← hj']
      exact coalesce_str_ne_empty _ hn

theorem normPresetList_normalized {now : String} {l : List JValue}
    {ps : List MorphSnapshotPresetEntry} (hn : now ≠ "")
    (h : normPresetList now l = some ps) : ∀ p ∈ ps, PresetNormalized p := by
  induction l generalizing ps with
  | nil =>
    simp only [normPresetList, Option.some.injEq] at h
    subst h
    simp
  | cons j js ih =>
    rw [normPresetList] at h
    rcases hj : normPreset now j with _ | e
    · rw [hj] at h; exact absurd h (by simp)
    · rw [hj] at h
      rcases e with _ | e
      · exact ih h
      · rcases hrest : normPresetList now js with _ | ps'
        · rw [hrest] at h; exact absurd h (by simp)
        · rw [hrest] at h
          simp at h
          intro p hp
          rw [← h] at hp
          rcases List.mem_cons.mp hp with hpe | hpm
          · exact hpe ▸ normPreset_normalized hn hj
          · exact ih hrest p hpm

theorem normalize_output_normalized {now : String} {x : JValue}
    {m : MorphSnapshotManifestEntry} (hn : now ≠ "")
    (h : _normalize_manifest now x = some m) : ManifestNormalized m := by
  rcases x with _ | _ | _ | _ | _ | kvs <;> simp [_normalize_manifest] at h
  rcases hit : pyIter ((JValue.obj kvs).getKey "presets" |>.getD (.arr [])) with _ | raws
  · rw [hit] at h
    exact Option.noConfusion h
  · rw [hit] at h
    have h' :
        (normPresetList now raws).map
          (fun presets =>
            ({ schemaVersion :=
                _coalesce_int ((JValue.obj kvs).getKey "schemaVersion")
                  CURRENT_MANIFEST_SCHEMA_VERSION
               updatedAt := _coalesce_str ((JValue.obj kvs).getKey "updatedAt") now
               presets := presets } : MorphSnapshotManifestEntry)) = some m := h
    rcases Option.map_eq_some'.mp h' with ⟨ps, hps, hm⟩
    constructor
    · rw [← hm]
      exact coalesce_str_ne_empty _ hn
    · rw [← hm]
      exact normPresetList_normalized hn hps

theorem normVersionT_fixpoint {v : MorphSnapshotVersionEntry} (now' : String)
    (h : v.capturedAt ≠ "") : normVersionT now' v = v := by
  rcases v with ⟨ver, sid, cat⟩
  simp [normVersionT, cstr_empty_default, cstr_of_ne _ h]

theorem map_id_of_forall {α : Type} {f : α → α} {l : List α} (h : ∀ x ∈ l, f x = x) :
    l.map f = l := by
  induction l with
  | nil => rfl
  | cons x xs ih =>
    rw [List.map_cons, h x (by simp), ih fun y hy => h y (List.mem_cons_of_mem x hy)]

theorem normPresetT_fixpoint {p : MorphSnapshotPresetEntry} (now' : String)
    (h : PresetNormalized p) : normPresetT now' p = p := by
  obtain ⟨hdesc, hsort, hcap⟩ := h
  have hvers : p.versions.map (normVersionT now') = p.versions :=
    map_id_of_forall fun v hv => normVersionT_fixpoint now' (hcap v hv)
  rcases p with ⟨pid, lab, cpu, mem, dsk, vers, desc⟩
  simp only at hvers hsort hdesc
  simp only [normPresetT, cstr_empty_default, hvers, hsort]
  rcases desc with _ | s
  · rfl
  · have hs : s ≠ "" := fun he => hdesc (by rw [he])
    simp [hs]

theorem normManifestT_fixpoint {m : MorphSnapshotManifestEntry} (now' : String)
    (h : ManifestNormalized m) : normManifestT now' m = m := by
  obtain ⟨hup, hps⟩ := h
  have hpres : m.presets.map (normPresetT now') = m.presets :=
    map_id_of_forall fun p hp => normPresetT_fixpoint now' (hps p hp)
  rcases m with ⟨sv, ua, ps⟩
  simp only at hpres hup
  simp [normManifestT, cstr_of_ne _ hup, hpres]

/-- **C7.** Manifest normalization is idempotent: for every input value
`x` (malformed entries, missing fields and unsorted version lists
included), `normalize(normalize(x)) == normalize(x)` — where a raising
call is `none`, and the two calls may observe different (non-empty)
current timestamps `now` and `now'`. -/
theorem normalize_manifest_idempotent (now now' : String) (x : JValue) (h : now ≠ "") :
    Option.bind (normalizeManifestJ now x) (normalizeManifestJ now') =
      normalizeManifestJ now x := by
  rcases h0 : _normalize_manifest now x with _ | m
  · simp [normalizeManifestJ, h0]
  · have hN := normalize_output_normalized h h0
    simp [normalizeManifestJ, h0, normalize_manifest_typed, normManifestT_fixpoint now' hN]

/-- Witness for `normalize_manifest_idempotent` at a concrete malformed
manifest (junk entries, missing fields, unsorted versions). -/
theorem normalize_manifest_idempotent_witness :
    ("2026-01-01T00:00:00Z" : String) ≠ "" ∧
      Option.bind
          (normalizeManifestJ "2026-01-01T00:00:00Z"
            (.obj [("presets", .arr [
              .obj [("presetId", .str "p1"), ("versions", .arr [
                .obj [("version", .int 2), ("snapshotId", .str "s2")],
                .obj [("version", .int 1), ("snapshotId", .str "s1"),
                      ("capturedAt", .str "T1")],
                .str "junk"])],
              .int 5,
              .obj [("presetId", .str "p2"), ("description", .str "")]])]))
          (normalizeManifestJ "2026-02-02T00:00:00Z") =
        normalizeManifestJ "2026-01-01T00:00:00Z"
          (.obj [("presets", .arr [
            .obj [("presetId", .str "p1"), ("versions", .arr [
              .obj [("version", .int 2), ("snapshotId", .str "s2")],
              .obj [("version", .int 1), ("snapshotId", .str "s1"),
                    ("capturedAt", .str "T1")],
              .str "junk"])],
            .int 5,
            .obj [("presetId", .str "p2"), ("description", .str "")]])]) :=
  ⟨by decide, normalize_manifest_idempotent _ "2026-02-02T00:00:00Z" _ (by decide)⟩

theorem bump_presetId (e : MorphSnapshotPresetEntry) (P : SnapshotPresetPlan)
    (sid cat : String) : (bumpPresetEntry e P sid cat).presetId = e.presetId := rfl

theorem fresh_presetId (P : SnapshotPresetPlan) :
    (freshPresetEntry P).presetId = P.preset_id := rfl

theorem filter_ne_updatePresetList (P : SnapshotPresetPlan) (sid cat : String)
    (ps : List MorphSnapshotPresetEntry) :
    (updatePresetList P sid cat ps).filter (fun e => e.presetId ≠ P.preset_id) =
      ps.filter (fun e => e.presetId ≠ P.preset_id) := by
  induction ps with
  | nil => simp [updatePresetList, List.filter, bump_presetId, fresh_presetId]
  | cons e es ih =>
    rw [updatePresetList]
    by_cases he : e.presetId = P.preset_id
    · rw [if_pos he]
      simp only [List.filter_cons]
      rw [if_neg (by simp [bump_presetId, he]), if_neg (by simp [he])]
    · rw [if_neg he]
      simp only [List.filter_cons]
      rw [if_pos (by simp [he]), if_pos (by simp [he]), ih]

theorem normVersionT_version (now : String) (v : MorphSnapshotVersionEntry) :
    (normVersionT now v).version = v.version := rfl

/-- **C8.** Updating the manifest for preset `P` leaves every preset entry
whose `presetId` differs from `P`'s unchanged — same fields, same versions
list — for any manifest in normal form (the only shape the program ever
passes in: `_load_manifest` and the update itself both normalize). -/
theorem manifest_update_isolation (now : String) (m : MorphSnapshotManifestEntry)
    (P : SnapshotPresetPlan) (sid cat : String)
    (hnorm : normManifestT now m = m) :
    (_update_manifest_with_snapshot now m P sid cat).presets.filter
        (fun e => e.presetId ≠ P.preset_id) =
      m.presets.filter (fun e => e.presetId ≠ P.preset_id) := by
  show (updatePresetList P sid cat (normManifestT now m).presets).filter _ = _
  rw [hnorm]
  exact filter_ne_updatePresetList P sid cat m.presets

/-- A concrete normalized manifest with one unrelated preset entry, and a
concrete preset plan, used by witnesses. -/
def manifestWithPb : MorphSnapshotManifestEntry :=
  { schemaVersion := 1
    updatedAt := "T0"
    presets := [{ presetId := "pb"
                  label := "L"
                  cpu := "2"
                  memory := "8"
                  disk := "40"
                  versions := [{ version := 1, snapshotId := "s1", capturedAt := "T1" }]
                  description := none }] }

def planPa : SnapshotPresetPlan :=
  { preset_id := "pa", label := "LabelA", cpu_display := "4", memory_display := "16",
    disk_display := "48" }

/-- Witness for `manifest_update_isolation` at a concrete normalized
manifest holding an unrelated preset entry. -/
theorem manifest_update_isolation_witness :
    normManifestT "NOW" manifestWithPb = manifestWithPb ∧
      (_update_manifest_with_snapshot "NOW" manifestWithPb planPa "snap" "T2").presets.filter
          (fun e => e.presetId ≠ planPa.preset_id) =
        manifestWithPb.presets.filter (fun e => e.presetId ≠ planPa.preset_id) :=
  ⟨by decide, manifest_update_isolation "NOW" manifestWithPb planPa "snap" "T2" (by decide)⟩

/-- Registered names are pairwise distinct (what `TaskRegistry.task`
enforces by rejecting duplicates). -/
def namesNodup (tasks : List TaskDefinition) : Prop := (tasks.map (·.name)).Nodup

theorem eq_of_name_eq {tasks : List TaskDefinition} (h : namesNodup tasks)
    {a b : TaskDefinition} (ha : a ∈ tasks) (hb : b ∈ tasks) (hn : a.name = b.name) :
    a = b :=
  List.inj_on_of_nodup_map h ha hb hn

theorem depsOf_eq {tasks : List TaskDefinition} {t : TaskDefinition}
    (h : namesNodup tasks) (ht : t ∈ tasks) : depsOf tasks t.name = t.dependencies := by
  rcases hf : tasks.find? (fun t' => t'.name = t.name) with _ | t'
  · exact absurd (List.find?_eq_none.mp hf t ht) (by simp)
  · have hmem := List.mem_of_find?_eq_some hf
    have hp := List.find?_some hf
    simp only [decide_eq_true_eq] at hp
    rw [depsOf, hf, eq_of_name_eq h hmem ht hp]

theorem task_label_inj : Function.Injective (fun s => "task:" ++ s) := by
  intro a b h
  simp only at h
  rw [String.ext_iff] at h
  simp [String.data_append] at h
  exact String.ext h

theorem task_label_ne_layer {a b : String} : ("task:" ++ a) ≠ ("layer:" ++ b) := by
  intro h
  rw [String.ext_iff] at h
  simp [String.data_append] at h

theorem count_task_label (n : String) (l : List String) :
    (l.map (fun s => "task:" ++ s)).count ("task:" ++ n) = l.count n :=
  List.count_map_of_injective l _ task_label_inj n

theorem reachesIn_mono {tasks : List TaskDefinition} :
    ∀ (k : Nat) {k' : Nat} {a b : String}, k ≤ k' → reachesIn tasks k a b = true →
      reachesIn tasks k' a b = true := by
  intro k
  induction k with
  | zero =>
    intro k' a b _ h
    simp [reachesIn] at h
  | succ n ih =>
    intro k' a b hkk h
    cases k' with
    | zero => omega
    | succ n' =>
      rw [reachesIn, List.any_eq_true] at h ⊢
      obtain ⟨d, hd, hdb⟩ := h
      refine ⟨d, hd, ?_⟩
      rw [Bool.or_eq_true] at hdb ⊢
      rcases hdb with h1 | h2
      · exact Or.inl h1
      · exact Or.inr (ih (by omega) h2)

theorem reach_mem_closed {tasks : List TaskDefinition} {c : List String}
    (hc : ∀ n ∈ c, ∀ d ∈ depsOf tasks n, d ∈ c) :
    ∀ (k : Nat) {a b : String}, a ∈ c → reachesIn tasks k a b = true → b ∈ c := by
  intro k
  induction k with
  | zero =>
    intro a b _ h
    simp [reachesIn] at h
  | succ n ih =>
    intro a b ha h
    rw [reachesIn, List.any_eq_true] at h
    obtain ⟨d, hd, hdb⟩ := h
    have hdc : d ∈ c := hc a ha d hd
    rw [Bool.or_eq_true, decide_eq_true_eq] at hdb
    rcases hdb with h1 | h2
    · exact h1 ▸ hdc
    · exact ih hdc h2

theorem reachesIn_of_path {tasks : List TaskDefinition} (g : Nat → String)
    (hstep : ∀ k, g (k + 1) ∈ depsOf tasks (g k)) :
    ∀ (d i : Nat), reachesIn tasks (d + 1) (g i) (g (i + d + 1)) = true := by
  intro d
  induction d with
  | zero =>
    intro i
    rw [reachesIn, List.any_eq_true]
    exact ⟨g (i + 1), hstep i, by simp⟩
  | succ n ih =>
    intro i
    rw [reachesIn, List.any_eq_true]
    refine ⟨g (i + 1), hstep i, ?_⟩
    rw [Bool.or_eq_true]
    right
    have hih := ih (i + 1)
    have harith : i + 1 + n + 1 = i + (n + 1) + 1 := by omega
    rw [harith] at hih
    exact hih

theorem scheduler_progress {tasks : List TaskDefinition} {completed : List String}
    (hnodup : namesNodup tasks) (hclosed : depsClosed tasks)
    (hacyc : hasCycle tasks = false)
    (hne : tasks.filter (fun t => !(completed.contains t.name)) ≠ []) :
    (tasks.filter (fun t => !(completed.contains t.name))).filter
      (taskReady completed) ≠ [] := by
  classical
  set R := tasks.filter (fun t => !(completed.contains t.name)) with hR
  intro hready
  rw [List.filter_eq_nil_iff] at hready
  have hsucc : ∀ t ∈ R, ∃ t', t' ∈ R ∧ t'.name ∈ t.dependencies := by
    intro t htR
    have htasks : t ∈ tasks := (List.mem_filter.mp htR).1
    have hnotready := hready t htR
    rw [taskReady] at hnotready
    have hnall : ¬ ∀ d ∈ t.dependencies, completed.contains d = true := by
      intro hall
      exact hnotready (List.all_eq_true.mpr hall)
    push_neg at hnall
    obtain ⟨d, hd, hdc⟩ := hnall
    have hdc' : completed.contains d = false := by simpa using hdc
    obtain ⟨t', ht', hname⟩ := hclosed t htasks d hd
    refine ⟨t', ?_, hname ▸ hd⟩
    rw [hR, List.mem_filter]
    refine ⟨ht', ?_⟩
    rw [hname, hdc']
    rfl
  obtain ⟨t₀, ht₀⟩ : ∃ t, t ∈ R := List.exists_mem_of_ne_nil R hne
  let step : TaskDefinition → TaskDefinition := fun t =>
    if h : t ∈ R then (hsucc t h).choose else t₀
  have hstepR : ∀ t, (h : t ∈ R) → step t ∈ R ∧ (step t).name ∈ t.dependencies := by
    intro t h
    simp only [step, dif_pos h]
    exact (hsucc t h).choose_spec
  let f : Nat → TaskDefinition := fun k => step^[k] t₀
  have hfR : ∀ k, f k ∈ R := by
    intro k
    induction k with
    | zero => exact ht₀
    | succ n ih =>
      have hsa : f (n + 1) = step (f n) := Function.iterate_succ_apply' step n t₀
      rw [hsa]
      exact (hstepR (f n) ih).1
  have hedge : ∀ k, (f (k + 1)).name ∈ depsOf tasks (f k).name := by
    intro k
    have hsa : f (k + 1) = step (f k) := Function.iterate_succ_apply' step k t₀
    rw [hsa, depsOf_eq hnodup ((List.mem_filter.mp (hfR k)).1)]
    exact (hstepR (f k) (hfR k)).2
  have hcard : ((R.map (·.name)).toFinset).card < Fintype.card (Fin (R.length + 1)) := by
    have h1 : (R.map (·.name)).toFinset.card ≤ R.length :=
      le_trans (List.toFinset_card_le _) (by simp)
    rw [Fintype.card_fin]
    omega
  have hmaps : ∀ i ∈ (Finset.univ : Finset (Fin (R.length + 1))),
      (f (i : Nat)).name ∈ (R.map (·.name)).toFinset := by
    intro i _
    rw [List.mem_toFinset]
    exact List.mem_map_of_mem _ (hfR i)
  obtain ⟨i, _, j, _, hij, hnames⟩ :=
    Finset.exists_ne_map_eq_of_card_lt_of_maps_to hcard hmaps
  have hRlen : R.length ≤ tasks.length := by
    rw [hR]
    exact List.length_filter_le _ _
  have key : ∀ a b : Fin (R.length + 1), a < b → (f (a : Nat)).name = (f (b : Nat)).name →
      False := by
    intro a b hab heq
    have hpath := @reachesIn_of_path tasks (fun k => (f k).name) hedge
    have hsplit : (b : Nat) = (a : Nat) + ((b : Nat) - (a : Nat) - 1) + 1 := by
      have : (a : Nat) < (b : Nat) := hab
      omega
    have hreach0 := hpath ((b : Nat) - (a : Nat) - 1) (a : Nat)
    rw [← hsplit] at hreach0
    have hreach : reachesIn tasks ((b : Nat) - (a : Nat) - 1 + 1)
        (f (a : Nat)).name (f (b : Nat)).name = true := hreach0
    rw [← heq] at hreach
    have honc : onCycle tasks (f (a : Nat)).name = true := by
      rw [onCycle]
      refine reachesIn_mono _ ?_ hreach
      have hb := j.isLt
      have hb' := b.isLt
      omega
    have hcyc : hasCycle tasks = true := by
      rw [hasCycle, List.any_eq_true]
      exact ⟨f (a : Nat), (List.mem_filter.mp (hfR (a : Nat))).1, honc⟩
    rw [hcyc] at hacyc
    exact Bool.noConfusion hacyc
  rcases hij.lt_or_lt with hlt | hlt
  · exact key i j hlt hnames
  · exact key j i hlt hnames.symm

theorem firstFailure_none {l : List TaskDefinition} (h : ∀ t ∈ l, t.outcome = none) :
    firstFailure l = none := by
  induction l with
  | nil => rfl
  | cons t ts ih =>
    rw [firstFailure, h t (by simp)]
    exact ih fun t' ht' => h t' (List.mem_cons_of_mem t ht')

theorem firstFailure_some {l : List TaskDefinition} {n msg : String}
    (h : firstFailure l = some (n, msg)) :
    ∃ t ∈ l, t.name = n ∧ t.outcome = some msg := by
  induction l with
  | nil => exact Option.noConfusion h
  | cons t ts ih =>
    rw [firstFailure] at h
    rcases ho : t.outcome with _ | m
    · rw [ho] at h
      obtain ⟨t', ht', h'⟩ := ih h
      exact ⟨t', List.mem_cons_of_mem t ht', h'⟩
    · rw [ho] at h
      simp only [Option.some.injEq, Prod.mk.injEq] at h
      exact ⟨t, by simp, h.1, by rw [ho, h.2]⟩

theorem firstFailure_isSome {l : List TaskDefinition}
    (h : ∃ t ∈ l, t.outcome ≠ none) : firstFailure l ≠ none := by
  induction l with
  | nil => simp at h
  | cons t ts ih =>
    rw [firstFailure]
    rcases ho : t.outcome with _ | m
    · apply ih
      obtain ⟨t', ht', hne⟩ := h
      rcases List.mem_cons.mp ht' with he | hm
      · exact absurd (he ▸ ho) hne
      · exact ⟨t', hm, hne⟩
    · simp

theorem filterMap_timings {l : List TaskDefinition} (h : ∀ t ∈ l, t.outcome = none) :
    (l.filterMap fun t => if t.outcome = none then some ("task:" ++ t.name) else none) =
      l.map fun t => "task:" ++ t.name := by
  induction l with
  | nil => rfl
  | cons t ts ih =>
    rw [List.filterMap_cons, if_pos (h t (by simp)), List.map_cons,
      ih fun t' ht' => h t' (List.mem_cons_of_mem t ht')]

theorem filter_names_nodup {tasks : List TaskDefinition} (p : TaskDefinition → Bool)
    (h : namesNodup tasks) : ((tasks.filter p).map (·.name)).Nodup := by
  have h' : (tasks.map (·.name)).Nodup := h
  exact ((List.filter_sublist tasks).map (·.name)).nodup h'

theorem contains_eq_false_iff {l : List String} {a : String} :
    l.contains a = false ↔ a ∉ l := by
  constructor
  · intro h hmem
    rw [contains_iff_mem.mpr hmem] at h
    exact Bool.noConfusion h
  · intro h
    cases hc : l.contains a
    · rfl
    · exact absurd (contains_iff_mem.mp hc) h

theorem remaining_step {tasks : List TaskDefinition} {completed : List String}
    (hnodup : namesNodup tasks) :
    (tasks.filter (fun t => !(completed.contains t.name))).filter
        (fun t => !taskReady completed t) =
      tasks.filter (fun t => !((completed ++
        ((tasks.filter (fun t => !(completed.contains t.name))).filter
          (taskReady completed)).map (·.name)).contains t.name)) := by
  rw [List.filter_filter]
  apply List.filter_congr
  intro t ht
  have key : (taskReady completed t || completed.contains t.name) =
      ((completed ++ ((tasks.filter (fun t => !(completed.contains t.name))).filter
        (taskReady completed)).map (·.name)).contains t.name) := by
    rw [Bool.eq_iff_iff, Bool.or_eq_true, contains_iff_mem, contains_iff_mem, List.mem_append]
    constructor
    · intro h
      rcases h with hA | hB
      · by_cases hc : t.name ∈ completed
        · exact Or.inl hc
        · right
          apply List.mem_map_of_mem
          rw [List.mem_filter]
          refine ⟨?_, hA⟩
          rw [List.mem_filter]
          refine ⟨ht, ?_⟩
          rw [Bool.not_eq_true']
          exact contains_eq_false_iff.mpr hc
      · exact Or.inl hB
    · intro h
      rcases h with hc | hm
      · exact Or.inr hc
      · left
        obtain ⟨t', ht', hname⟩ := List.mem_map.mp hm
        have h1 := List.mem_filter.mp ht'
        have h2 := List.mem_filter.mp h1.1
        have heq : t' = t := eq_of_name_eq hnodup h2.1 ht hname
        exact heq ▸ h1.2
  calc (!taskReady completed t && !completed.contains t.name)
      = !(taskReady completed t || completed.contains t.name) := (Bool.not_or _ _).symm
    _ = _ := by rw [key]

theorem completed_step_closed {tasks : List TaskDefinition} {completed : List String}
    (hnodup : namesNodup tasks)
    (hcc : ∀ n ∈ completed, ∀ d ∈ depsOf tasks n, d ∈ completed) :
    ∀ n ∈ completed ++ ((tasks.filter (fun t => !(completed.contains t.name))).filter
        (taskReady completed)).map (·.name),
      ∀ d ∈ depsOf tasks n, d ∈ completed ++
        ((tasks.filter (fun t => !(completed.contains t.name))).filter
          (taskReady completed)).map (·.name) := by
  intro n hn d hd
  rcases List.mem_append.mp hn with hc | hm
  · exact List.mem_append_left _ (hcc n hc d hd)
  · obtain ⟨t, ht, hname⟩ := List.mem_map.mp hm
    have h1 := List.mem_filter.mp ht
    have h2 := List.mem_filter.mp h1.1
    have hdeps : depsOf tasks n = t.dependencies := by
      rw [← hname]
      exact depsOf_eq hnodup h2.1
    rw [hdeps] at hd
    have hready := h1.2
    rw [taskReady, List.all_eq_true] at hready
    exact List.mem_append_left _ (contains_iff_mem.mp (hready d hd))

theorem rem_names_split {tasks : List TaskDefinition} {completed : List String}
    (n : String) :
    n ∈ (tasks.filter (fun t => !(completed.contains t.name))).map (·.name) ↔
      n ∈ ((tasks.filter (fun t => !(completed.contains t.name))).filter
            (taskReady completed)).map (·.name) ∨
        n ∈ ((tasks.filter (fun t => !(completed.contains t.name))).filter
            (fun t => !taskReady completed t)).map (·.name) := by
  constructor
  · intro h
    obtain ⟨t, ht, hn⟩ := List.mem_map.mp h
    cases hready : taskReady completed t
    · right
      rw [← hn]
      exact List.mem_map_of_mem _ (List.mem_filter.mpr ⟨ht, by simp [hready]⟩)
    · left
      rw [← hn]
      exact List.mem_map_of_mem _ (List.mem_filter.mpr ⟨ht, hready⟩)
  · intro h
    rcases h with h | h <;>
    · obtain ⟨t, ht, hn⟩ := List.mem_map.mp h
      rw [← hn]
      exact List.mem_map_of_mem _ (List.mem_filter.mp ht).1

theorem ready_names_nodup {tasks : List TaskDefinition} {completed : List String}
    (hnodup : namesNodup tasks) :
    (((tasks.filter (fun t => !(completed.contains t.name))).filter
        (taskReady completed)).map (·.name)).Nodup := by
  rw [List.filter_filter]
  exact filter_names_nodup _ hnodup

theorem ready_rem_names_disjoint {tasks : List TaskDefinition} {completed : List String}
    (hnodup : namesNodup tasks) {n : String}
    (h1 : n ∈ ((tasks.filter (fun t => !(completed.contains t.name))).filter
        (taskReady completed)).map (·.name)) :
    n ∉ ((tasks.filter (fun t => !(completed.contains t.name))).filter
        (fun t => !taskReady completed t)).map (·.name) := by
  intro h2
  obtain ⟨t₁, ht₁, hn₁⟩ := List.mem_map.mp h1
  obtain ⟨t₂, ht₂, hn₂⟩ := List.mem_map.mp h2
  have hm₁ := List.mem_filter.mp ht₁
  have hm₂ := List.mem_filter.mp ht₂
  have htask₁ : t₁ ∈ tasks := (List.mem_filter.mp hm₁.1).1
  have htask₂ : t₂ ∈ tasks := (List.mem_filter.mp hm₂.1).1
  have heq : t₁ = t₂ := eq_of_name_eq hnodup htask₁ htask₂ (by rw [hn₁, hn₂])
  have hr₁ := hm₁.2
  have hr₂ := hm₂.2
  rw [heq] at hr₁
  rw [hr₁] at hr₂
  exact Bool.noConfusion hr₂

theorem count_split_ready {tasks : List TaskDefinition} {completed : List String}
    (hnodup : namesNodup tasks) (n : String) :
    ((((tasks.filter (fun t => !(completed.contains t.name))).filter
        (taskReady completed)).map (·.name)).count n +
      (if n ∈ ((tasks.filter (fun t => !(completed.contains t.name))).filter
          (fun t => !taskReady completed t)).map (·.name) then 1 else 0)) =
    (if n ∈ (tasks.filter (fun t => !(completed.contains t.name))).map (·.name)
     then 1 else 0) := by
  by_cases h1 : n ∈ ((tasks.filter (fun t => !(completed.contains t.name))).filter
      (taskReady completed)).map (·.name)
  · rw [List.count_eq_one_of_mem (ready_names_nodup hnodup) h1,
      if_neg (ready_rem_names_disjoint hnodup h1),
      if_pos ((rem_names_split n).mpr (Or.inl h1))]
  · rw [List.count_eq_zero_of_not_mem h1]
    by_cases h2 : n ∈ ((tasks.filter (fun t => !(completed.contains t.name))).filter
        (fun t => !taskReady completed t)).map (·.name)
    · rw [if_pos h2, if_pos ((rem_names_split n).mpr (Or.inr h2))]
    · rw [if_neg h2, if_neg (fun hmem => by
        rcases (rem_names_split n).mp hmem with h | h
        · exact h1 h
        · exact h2 h)]

/-- What a fully successful scheduler run guarantees, relative to the
accumulators it started from: no error; exactly one `task:<name>` timing
and one start per remaining task; `completed` grows by exactly the
remaining names; and every start happened only after all its dependencies
were in the `completed` set. -/
def SuccessSpec (tasks : List TaskDefinition) (completed timings : List String)
    (starts : List (String × List String)) (r : RunGraphResult) : Prop :=
  r.error = none ∧
  (∀ n, r.timings.count ("task:" ++ n) = timings.count ("task:" ++ n) +
    (if n ∈ (tasks.filter (fun t => !(completed.contains t.name))).map (·.name)
     then 1 else 0)) ∧
  (∀ n, (r.starts.map Prod.fst).count n = (starts.map Prod.fst).count n +
    (if n ∈ (tasks.filter (fun t => !(completed.contains t.name))).map (·.name)
     then 1 else 0)) ∧
  (∀ x, x ∈ r.completed ↔ x ∈ completed ∨
    x ∈ (tasks.filter (fun t => !(completed.contains t.name))).map (·.name)) ∧
  (∀ p ∈ r.starts, p ∈ starts ∨
    ∃ t ∈ tasks, t.name = p.1 ∧ ∀ d ∈ t.dependencies, d ∈ p.2)

theorem runAux_success {tasks : List TaskDefinition}
    (hnodup : namesNodup tasks) (hclosed : depsClosed tasks)
    (hacyc : hasCycle tasks = false) (hok : ∀ t ∈ tasks, t.outcome = none) :
    ∀ (L : Nat) (completed timings : List String)
      (starts : List (String × List String)),
      (tasks.filter (fun t => !(completed.contains t.name))).length = L →
      (∀ n ∈ completed, ∀ d ∈ depsOf tasks n, d ∈ completed) →
      SuccessSpec tasks completed timings starts
        (runTaskGraphAux (tasks.filter (fun t => !(completed.contains t.name)))
          completed timings starts) := by
  intro L
  induction L using Nat.strong_induction_on with
  | _ L ih =>
    intro completed timings starts hlen hcc
    by_cases hrem : tasks.filter (fun t => !(completed.contains t.name)) = []
    · have hr : runTaskGraphAux (tasks.filter (fun t => !(completed.contains t.name)))
          completed timings starts =
          ⟨timings, starts, completed, none⟩ := by
        rw [hrem, runTaskGraphAux]
        simp
      refine ⟨?_, ?_, ?_, ?_, ?_⟩
      · rw [hr]
      · intro n
        rw [hr, hrem]
        simp
      · intro n
        rw [hr, hrem]
        simp
      · intro x
        rw [hr, hrem]
        simp
      · intro p hp
        rw [hr] at hp
        exact Or.inl hp
    · have hreadyne : (tasks.filter (fun t => !(completed.contains t.name))).filter
          (taskReady completed) ≠ [] := scheduler_progress hnodup hclosed hacyc hrem
      have hreadytasks : ∀ t ∈ (tasks.filter (fun t => !(completed.contains t.name))).filter
          (taskReady completed), t ∈ tasks :=
        fun t ht => (List.mem_filter.mp (List.mem_filter.mp ht).1).1
      have hff := firstFailure_none fun t ht => hok t (hreadytasks t ht)
      have htt := filterMap_timings fun t ht => hok t (hreadytasks t ht)
      have hstep : runTaskGraphAux (tasks.filter (fun t => !(completed.contains t.name)))
          completed timings starts =
          runTaskGraphAux
            ((tasks.filter (fun t => !(completed.contains t.name))).filter
              (fun t => !taskReady completed t))
            (completed ++ ((tasks.filter (fun t => !(completed.contains t.name))).filter
              (taskReady completed)).map (·.name))
            (timings ++ ((tasks.filter (fun t => !(completed.contains t.name))).filter
              (taskReady completed)).map (fun t => "task:" ++ t.name) ++
              ["layer:" ++ String.intercalate "+"
                (((tasks.filter (fun t => !(completed.contains t.name))).filter
                  (taskReady completed)).map (·.name))])
            (starts ++ ((tasks.filter (fun t => !(completed.contains t.name))).filter
              (taskReady completed)).map fun t => (t.name, completed)) := by
        rw [runTaskGraphAux, dif_neg hrem]
        simp only [dif_neg hreadyne, hff, htt]
      have hremeq := @remaining_step tasks completed hnodup
      have hlt : (tasks.filter (fun t => !((completed ++
          ((tasks.filter (fun t => !(completed.contains t.name))).filter
            (taskReady completed)).map (·.name)).contains t.name))).length < L := by
        rw [← hremeq, ← hlen]
        have hsplit := List.length_eq_length_filter_add
          (l := tasks.filter (fun t => !(completed.contains t.name)))
          (taskReady completed)
        have hpos : 0 < ((tasks.filter (fun t => !(completed.contains t.name))).filter
            (taskReady completed)).length := List.length_pos.mpr hreadyne
        omega
      have hcc' := completed_step_closed hnodup hcc
      have hspec := ih _ hlt (completed ++ ((tasks.filter
          (fun t => !(completed.contains t.name))).filter
            (taskReady completed)).map (·.name))
        (timings ++ ((tasks.filter (fun t => !(completed.contains t.name))).filter
          (taskReady completed)).map (fun t => "task:" ++ t.name) ++
          ["layer:" ++ String.intercalate "+"
            (((tasks.filter (fun t => !(completed.contains t.name))).filter
              (taskReady completed)).map (·.name))])
        (starts ++ ((tasks.filter (fun t => !(completed.contains t.name))).filter
          (taskReady completed)).map fun t => (t.name, completed)) rfl hcc'
      obtain ⟨e1, e2, e3, e4, e5⟩ := hspec
      rw [← hremeq] at e1 e2 e3 e4 e5
      rw [hstep] at *
      refine ⟨e1, ?_, ?_, ?_, ?_⟩
      · intro n
        rw [e2 n, hremeq]
        have hlayer : ∀ x : String, (["layer:" ++ x]).count ("task:" ++ n) = 0 := by
          intro x
          rw [List.count_eq_zero]
          simp only [List.mem_singleton]
          exact fun h => task_label_ne_layer h
        have hlabels : (((tasks.filter (fun t => !(completed.contains t.name))).filter
            (taskReady completed)).map (fun t => "task:" ++ t.name)).count ("task:" ++ n) =
            (((tasks.filter (fun t => !(completed.contains t.name))).filter
              (taskReady completed)).map (·.name)).count n := by
          rw [show (fun (t : TaskDefinition) => "task:" ++ t.name) =
            ((fun s => "task:" ++ s) ∘ (·.name)) from rfl, ← List.map_map]
          exact count_task_label n _
        rw [List.count_append, List.count_append, hlabels, hlayer, ← hremeq]
        have hs := @count_split_ready tasks completed hnodup n
        omega
      · intro n
        rw [e3 n, hremeq]
        rw [List.map_append, List.count_append]
        have hfst : ((((tasks.filter (fun t => !(completed.contains t.name))).filter
            (taskReady completed)).map fun t => (t.name, completed)).map Prod.fst) =
            ((tasks.filter (fun t => !(completed.contains t.name))).filter
              (taskReady completed)).map (·.name) := by
          rw [List.map_map]
          rfl
        rw [hfst, ← hremeq]
        have hs := @count_split_ready tasks completed hnodup n
        omega
      · intro x
        rw [e4 x]
        rw [List.mem_append]
        constructor
        · intro h
          rcases h with (hc | hrdy) | hr'
          · exact Or.inl hc
          · exact Or.inr ((rem_names_split x).mpr (Or.inl hrdy))
          · exact Or.inr ((rem_names_split x).mpr (Or.inr hr'))
        · intro h
          rcases h with hc | hm
          · exact Or.inl (Or.inl hc)
          · rcases (rem_names_split x).mp hm with h1 | h2
            · exact Or.inl (Or.inr h1)
            · exact Or.inr h2
      · intro p hp
        rcases e5 p hp with hin | hprop
        · rcases List.mem_append.mp hin with hs | hl
          · exact Or.inl hs
          · right
            obtain ⟨t, ht, hpt⟩ := List.mem_map.mp hl
            refine ⟨t, hreadytasks t ht, ?_, ?_⟩
            · rw [← hpt]
            · intro d hd
              rw [← hpt]
              have hready := (List.mem_filter.mp ht).2
              rw [taskReady, List.all_eq_true] at hready
              exact contains_iff_mem.mp (hready d hd)
        · exact Or.inr hprop

theorem all_success_of_firstFailure_none {l : List TaskDefinition}
    (h : firstFailure l = none) : ∀ t ∈ l, t.outcome = none := by
  intro t ht
  by_contra hne
  exact firstFailure_isSome ⟨t, ht, hne⟩ h

theorem onCycle_registered {tasks : List TaskDefinition} {x : String}
    (h : onCycle tasks x = true) : ∃ t ∈ tasks, t.name = x := by
  rw [onCycle] at h
  cases hlen : tasks.length with
  | zero =>
    rw [hlen, reachesIn] at h
    exact Bool.noConfusion h
  | succ n =>
    rw [hlen, reachesIn, List.any_eq_true] at h
    obtain ⟨d, hd, _⟩ := h
    rcases hf : tasks.find? (fun t => t.name = x) with _ | t
    · rw [depsOf, hf] at hd
      exact absurd hd (List.not_mem_nil d)
    · exact ⟨t, List.mem_of_find?_eq_some hf, by simpa using List.find?_some hf⟩

/-- What a failing scheduler run guarantees: the propagated error is the
exception of a single registered failing task; that task was started but
never completed; completed names persist; every recorded start happened
with its dependencies inside the (finally) completed set; and a registered
task is started exactly when it was already started, or all its
dependencies lie in the final completed set (the failing layer is never
marked completed, so nothing dispatched after it). -/
def FailSpec (tasks : List TaskDefinition) (completed : List String)
    (starts : List (String × List String)) (r : RunGraphResult) : Prop :=
  (∀ x ∈ completed, x ∈ r.completed) ∧
  (∀ t ∈ tasks, (t.name ∈ r.starts.map Prod.fst ↔
    (t.name ∈ starts.map Prod.fst ∨
      (t.name ∉ completed ∧ ∀ d ∈ t.dependencies, d ∈ r.completed)))) ∧
  ∃ n msg, r.error = some (.taskFailure n msg) ∧
    (∃ t ∈ tasks, t.name = n ∧ t.outcome = some msg) ∧
    n ∈ r.starts.map Prod.fst ∧
    n ∉ r.completed ∧
    (∀ p ∈ r.starts, p ∈ starts ∨
      ∃ t ∈ tasks, t.name = p.1 ∧ (∀ d ∈ t.dependencies, d ∈ p.2) ∧
        ∀ x ∈ p.2, x ∈ r.completed)

theorem runAux_fail {tasks : List TaskDefinition}
    (hnodup : namesNodup tasks) (hclosed : depsClosed tasks)
    (hacyc : hasCycle tasks = false) :
    ∀ (L : Nat) (completed timings : List String)
      (starts : List (String × List String)),
      (tasks.filter (fun t => !(completed.contains t.name))).length = L →
      (∀ n ∈ completed, ∀ d ∈ depsOf tasks n, d ∈ completed) →
      (∃ t ∈ tasks.filter (fun t => !(completed.contains t.name)), t.outcome ≠ none) →
      FailSpec tasks completed starts
        (runTaskGraphAux (tasks.filter (fun t => !(completed.contains t.name)))
          completed timings starts) := by
  intro L
  induction L using Nat.strong_induction_on with
  | _ L ih =>
    intro completed timings starts hlen hcc hfail
    have hrem : tasks.filter (fun t => !(completed.contains t.name)) ≠ [] := by
      obtain ⟨t, ht, _⟩ := hfail
      intro he
      rw [he] at ht
      exact List.not_mem_nil t ht
    have hreadyne : (tasks.filter (fun t => !(completed.contains t.name))).filter
        (taskReady completed) ≠ [] := scheduler_progress hnodup hclosed hacyc hrem
    have hreadytasks : ∀ t ∈ (tasks.filter (fun t => !(completed.contains t.name))).filter
        (taskReady completed), t ∈ tasks :=
      fun t ht => (List.mem_filter.mp (List.mem_filter.mp ht).1).1
    rcases hffc : firstFailure ((tasks.filter (fun t => !(completed.contains t.name))).filter
        (taskReady completed)) with _ | nm
    · -- current layer fully succeeds: recurse
      have hok' := all_success_of_firstFailure_none hffc
      have htt := filterMap_timings hok'
      have hstep : runTaskGraphAux (tasks.filter (fun t => !(completed.contains t.name)))
          completed timings starts =
          runTaskGraphAux
            ((tasks.filter (fun t => !(completed.contains t.name))).filter
              (fun t => !taskReady completed t))
            (completed ++ ((tasks.filter (fun t => !(completed.contains t.name))).filter
              (taskReady completed)).map (·.name))
            (timings ++ ((tasks.filter (fun t => !(completed.contains t.name))).filter
              (taskReady completed)).map (fun t => "task:" ++ t.name) ++
              ["layer:" ++ String.intercalate "+"
                (((tasks.filter (fun t => !(completed.contains t.name))).filter
                  (taskReady completed)).map (·.name))])
            (starts ++ ((tasks.filter (fun t => !(completed.contains t.name))).filter
              (taskReady completed)).map fun t => (t.name, completed)) := by
        rw [runTaskGraphAux, dif_neg hrem]
        simp only [dif_neg hreadyne, hffc, htt]
      have hremeq := @remaining_step tasks completed hnodup
      have hlt : (tasks.filter (fun t => !((completed ++
          ((tasks.filter (fun t => !(completed.contains t.name))).filter
            (taskReady completed)).map (·.name)).contains t.name))).length < L := by
        rw [← hremeq, ← hlen]
        have hsplit := List.length_eq_length_filter_add
          (l := tasks.filter (fun t => !(completed.contains t.name)))
          (taskReady completed)
        have hpos : 0 < ((tasks.filter (fun t => !(completed.contains t.name))).filter
            (taskReady completed)).length := List.length_pos.mpr hreadyne
        omega
      have hcc' := completed_step_closed hnodup hcc
      have hfail' : ∃ t ∈ tasks.filter (fun t => !((completed ++
          ((tasks.filter (fun t => !(completed.contains t.name))).filter
            (taskReady completed)).map (·.name)).contains t.name)), t.outcome ≠ none := by
        obtain ⟨t, ht, hne⟩ := hfail
        refine ⟨t, ?_, hne⟩
        rw [← hremeq, List.mem_filter]
        refine ⟨ht, ?_⟩
        cases hb : taskReady completed t
        · rfl
        · exact absurd (hok' t (List.mem_filter.mpr ⟨ht, hb⟩)) hne
      have hspec := ih _ hlt (completed ++ ((tasks.filter
          (fun t => !(completed.contains t.name))).filter
            (taskReady completed)).map (·.name))
        (timings ++ ((tasks.filter (fun t => !(completed.contains t.name))).filter
          (taskReady completed)).map (fun t => "task:" ++ t.name) ++
          ["layer:" ++ String.intercalate "+"
            (((tasks.filter (fun t => !(completed.contains t.name))).filter
              (taskReady completed)).map (·.name))])
        (starts ++ ((tasks.filter (fun t => !(completed.contains t.name))).filter
          (taskReady completed)).map fun t => (t.name, completed)) rfl hcc' hfail'
      obtain ⟨hsub, hiff, n, msg, herr, hreg, hstart, hncomp, hstarts⟩ := hspec
      rw [← hremeq] at hsub hiff herr hstart hncomp hstarts
      rw [hstep]
      refine ⟨?_, ?_, n, msg, herr, hreg, hstart, hncomp, ?_⟩
      · intro x hx
        exact hsub x (List.mem_append_left _ hx)
      · intro t ht
        have hfst : (((tasks.filter (fun t => !(completed.contains t.name))).filter
            (taskReady completed)).map fun t => (t.name, completed)).map Prod.fst =
            ((tasks.filter (fun t => !(completed.contains t.name))).filter
              (taskReady completed)).map (·.name) := by
          rw [List.map_map]
          rfl
        have hLt : t.name ∈ ((tasks.filter (fun t => !(completed.contains t.name))).filter
            (taskReady completed)).map (·.name) →
            t.name ∉ completed ∧ ∀ d ∈ t.dependencies,
              d ∈ (runTaskGraphAux
                ((tasks.filter (fun t => !(completed.contains t.name))).filter
                  (fun t => !taskReady completed t))
                (completed ++ ((tasks.filter (fun t => !(completed.contains t.name))).filter
                  (taskReady completed)).map (·.name))
                (timings ++ ((tasks.filter (fun t => !(completed.contains t.name))).filter
                  (taskReady completed)).map (fun t => "task:" ++ t.name) ++
                  ["layer:" ++ String.intercalate "+"
                    (((tasks.filter (fun t => !(completed.contains t.name))).filter
                      (taskReady completed)).map (·.name))])
                (starts ++ ((tasks.filter (fun t => !(completed.contains t.name))).filter
                  (taskReady completed)).map fun t => (t.name, completed))).completed := by
          intro hL
          obtain ⟨t', ht', htn⟩ := List.mem_map.mp hL
          have heq : t' = t := eq_of_name_eq hnodup (hreadytasks t' ht') ht htn
          subst heq
          constructor
          · have hx := (List.mem_filter.mp (List.mem_filter.mp ht').1).2
            exact contains_eq_false_iff.mp (by simpa using hx)
          · intro d hd
            have hready := (List.mem_filter.mp ht').2
            rw [taskReady, List.all_eq_true] at hready
            exact hsub d (List.mem_append_left _ (contains_iff_mem.mp (hready d hd)))
        rw [hiff t ht, List.map_append, hfst]
        constructor
        · rintro (hs | ⟨hnc, hd⟩)
          · rcases List.mem_append.mp hs with hs | hL
            · exact Or.inl hs
            · exact Or.inr (hLt hL)
          · refine Or.inr ⟨fun hc => hnc (List.mem_append_left _ hc), hd⟩
        · rintro (hs | ⟨hnc, hd⟩)
          · exact Or.inl (List.mem_append_left _ hs)
          · by_cases hL : t.name ∈ ((tasks.filter
                (fun t => !(completed.contains t.name))).filter
                  (taskReady completed)).map (·.name)
            · exact Or.inl (List.mem_append_right _ hL)
            · refine Or.inr ⟨?_, hd⟩
              intro hmem
              rcases List.mem_append.mp hmem with h | h
              · exact hnc h
              · exact hL h
      · intro p hp
        rcases hstarts p hp with hin | hprop
        · rcases List.mem_append.mp hin with hs | hl
          · exact Or.inl hs
          · right
            obtain ⟨t, ht, hpt⟩ := List.mem_map.mp hl
            refine ⟨t, hreadytasks t ht, by rw [← hpt], ?_, ?_⟩
            · intro d hd
              rw [← hpt]
              have hready := (List.mem_filter.mp ht).2
              rw [taskReady, List.all_eq_true] at hready
              exact contains_iff_mem.mp (hready d hd)
            · intro x hx
              rw [← hpt] at hx
              exact hsub x (List.mem_append_left _ hx)
        · exact Or.inr hprop
    · -- the layer fails: the run stops here
      obtain ⟨n, msg⟩ := nm
      obtain ⟨tf, htf, htfn, htfo⟩ := firstFailure_some hffc
      have hstep : runTaskGraphAux (tasks.filter (fun t => !(completed.contains t.name)))
          completed timings starts =
          { timings := timings ++ ((tasks.filter
              (fun t => !(completed.contains t.name))).filter
                (taskReady completed)).filterMap fun t =>
                  if t.outcome = none then some ("task:" ++ t.name) else none
            starts := starts ++ ((tasks.filter (fun t => !(completed.contains t.name))).filter
              (taskReady completed)).map fun t => (t.name, completed)
            completed := completed
            error := some (.taskFailure n msg) } := by
        rw [runTaskGraphAux, dif_neg hrem]
        simp only [dif_neg hreadyne, hffc]
      rw [hstep]
      refine ⟨fun x hx => hx, ?_, n, msg, rfl, ⟨tf, hreadytasks tf htf, htfn, htfo⟩,
        ?_, ?_, ?_⟩
      · intro t ht
        have hfst : (((tasks.filter (fun t => !(completed.contains t.name))).filter
            (taskReady completed)).map fun t => (t.name, completed)).map Prod.fst =
            ((tasks.filter (fun t => !(completed.contains t.name))).filter
              (taskReady completed)).map (·.name) := by
          rw [List.map_map]
          rfl
        rw [List.map_append, hfst]
        constructor
        · intro hs
          rcases List.mem_append.mp hs with hs | hL
          · exact Or.inl hs
          · obtain ⟨t', ht', htn⟩ := List.mem_map.mp hL
            have heq : t' = t := eq_of_name_eq hnodup (hreadytasks t' ht') ht htn
            subst heq
            refine Or.inr ⟨?_, ?_⟩
            · have hx := (List.mem_filter.mp (List.mem_filter.mp ht').1).2
              exact contains_eq_false_iff.mp (by simpa using hx)
            · intro d hd
              have hready := (List.mem_filter.mp ht').2
              rw [taskReady, List.all_eq_true] at hready
              exact contains_iff_mem.mp (hready d hd)
        · rintro (hs | ⟨hnc, hd⟩)
          · exact List.mem_append_left _ hs
          · refine List.mem_append_right _ ?_
            apply List.mem_map_of_mem
            rw [List.mem_filter]
            refine ⟨?_, ?_⟩
            · rw [List.mem_filter]
              refine ⟨ht, ?_⟩
              rw [Bool.not_eq_true']
              exact contains_eq_false_iff.mpr hnc
            · rw [taskReady, List.all_eq_true]
              intro d hd2
              exact contains_iff_mem.mpr (hd d hd2)
      · rw [List.map_append]
        apply List.mem_append_right
        rw [← htfn]
        have : (tf.name, completed) ∈ ((tasks.filter
            (fun t => !(completed.contains t.name))).filter
              (taskReady completed)).map fun t => (t.name, completed) :=
          List.mem_map_of_mem _ htf
        simpa using List.mem_map_of_mem Prod.fst this
      · have hmem := (List.mem_filter.mp htf).1
        have := (List.mem_filter.mp hmem).2
        rw [← htfn]
        exact contains_eq_false_iff.mp (by simpa using this)
      · intro p hp
        rcases List.mem_append.mp hp with hs | hl
        · exact Or.inl hs
        · right
          obtain ⟨t, ht, hpt⟩ := List.mem_map.mp hl
          refine ⟨t, hreadytasks t ht, by rw [← hpt], ?_, ?_⟩
          · intro d hd
            rw [← hpt]
            have hready := (List.mem_filter.mp ht).2
            rw [taskReady, List.all_eq_true] at hready
            exact contains_iff_mem.mp (hready d hd)
          · intro x hx
            rw [← hpt] at hx
            exact hx

/-- What a run over a cyclic registry guarantees: it raises the
`Dependency cycle detected` error, naming exactly the registered tasks
that never completed — which include every task lying on a cycle. -/
def CycleSpec (tasks : List TaskDefinition) (r : RunGraphResult) : Prop :=
  ∃ ns, r.error = some (.cycle ns) ∧
    ns = (tasks.filter (fun t => !(r.completed.contains t.name))).map (·.name) ∧
    ∀ x, onCycle tasks x = true → x ∈ ns

theorem runAux_cycle {tasks : List TaskDefinition}
    (hnodup : namesNodup tasks) (hok : ∀ t ∈ tasks, t.outcome = none)
    (hcyc : hasCycle tasks = true) :
    ∀ (L : Nat) (completed timings : List String)
      (starts : List (String × List String)),
      (tasks.filter (fun t => !(completed.contains t.name))).length = L →
      (∀ n ∈ completed, ∀ d ∈ depsOf tasks n, d ∈ completed) →
      (∀ x, onCycle tasks x = true → x ∉ completed) →
      CycleSpec tasks
        (runTaskGraphAux (tasks.filter (fun t => !(completed.contains t.name)))
          completed timings starts) := by
  intro L
  induction L using Nat.strong_induction_on with
  | _ L ih =>
    intro completed timings starts hlen hcc hnc
    obtain ⟨tc, htc, honc⟩ : ∃ t ∈ tasks, onCycle tasks t.name = true := by
      rw [hasCycle, List.any_eq_true] at hcyc
      exact hcyc
    have htcrem : tc ∈ tasks.filter (fun t => !(completed.contains t.name)) := by
      rw [List.mem_filter]
      refine ⟨htc, ?_⟩
      rw [Bool.not_eq_true']
      exact contains_eq_false_iff.mpr (hnc tc.name honc)
    have hrem : tasks.filter (fun t => !(completed.contains t.name)) ≠ [] := by
      intro he
      rw [he] at htcrem
      exact List.not_mem_nil tc htcrem
    rcases hready : (tasks.filter (fun t => !(completed.contains t.name))).filter
        (taskReady completed) with _ | ⟨r₀, rs⟩
    · -- stuck: the cycle diagnostic fires
      have hstep : runTaskGraphAux (tasks.filter (fun t => !(completed.contains t.name)))
          completed timings starts =
          { timings := timings, starts := starts, completed := completed,
            error := some (.cycle ((tasks.filter
              (fun t => !(completed.contains t.name))).map (·.name))) } := by
        rw [runTaskGraphAux, dif_neg hrem]
        simp only [dif_pos hready]
      rw [hstep]
      refine ⟨(tasks.filter (fun t => !(completed.contains t.name))).map (·.name),
        rfl, rfl, ?_⟩
      intro x hx
      obtain ⟨tx, htx, htxn⟩ := onCycle_registered hx
      rw [← htxn]
      apply List.mem_map_of_mem
      rw [List.mem_filter]
      refine ⟨htx, ?_⟩
      rw [Bool.not_eq_true']
      rw [htxn]
      exact contains_eq_false_iff.mpr (hnc x hx)
    · -- a layer of ready tasks runs (all succeed); no cyclic task is in it
      have hreadyne : (tasks.filter (fun t => !(completed.contains t.name))).filter
          (taskReady completed) ≠ [] := by
        rw [hready]
        exact List.cons_ne_nil r₀ rs
      have hreadytasks : ∀ t ∈ (tasks.filter
          (fun t => !(completed.contains t.name))).filter (taskReady completed),
          t ∈ tasks :=
        fun t ht => (List.mem_filter.mp (List.mem_filter.mp ht).1).1
      have hffc : firstFailure ((tasks.filter (fun t => !(completed.contains t.name))).filter
          (taskReady completed)) = none :=
        firstFailure_none fun t ht => hok t (hreadytasks t ht)
      have htt := filterMap_timings
        (l := (tasks.filter (fun t => !(completed.contains t.name))).filter
          (taskReady completed))
        fun t ht => hok t (hreadytasks t ht)
      have hstep : runTaskGraphAux (tasks.filter (fun t => !(completed.contains t.name)))
          completed timings starts =
          runTaskGraphAux
            ((tasks.filter (fun t => !(completed.contains t.name))).filter
              (fun t => !taskReady completed t))
            (completed ++ ((tasks.filter (fun t => !(completed.contains t.name))).filter
              (taskReady completed)).map (·.name))
            (timings ++ ((tasks.filter (fun t => !(completed.contains t.name))).filter
              (taskReady completed)).map (fun t => "task:" ++ t.name) ++
              ["layer:" ++ String.intercalate "+"
                (((tasks.filter (fun t => !(completed.contains t.name))).filter
                  (taskReady completed)).map (·.name))])
            (starts ++ ((tasks.filter (fun t => !(completed.contains t.name))).filter
              (taskReady completed)).map fun t => (t.name, completed)) := by
        rw [runTaskGraphAux, dif_neg hrem]
        simp only [dif_neg hreadyne, hffc, htt]
      have hremeq := @remaining_step tasks completed hnodup
      have hlt : (tasks.filter (fun t => !((completed ++
          ((tasks.filter (fun t => !(completed.contains t.name))).filter
            (taskReady completed)).map (·.name)).contains t.name))).length < L := by
        rw [← hremeq, ← hlen]
        have hsplit := List.length_eq_length_filter_add
          (l := tasks.filter (fun t => !(completed.contains t.name)))
          (taskReady completed)
        have hpos : 0 < ((tasks.filter (fun t => !(completed.contains t.name))).filter
            (taskReady completed)).length := List.length_pos.mpr hreadyne
        omega
      have hcc' := completed_step_closed hnodup hcc
      have hnc' : ∀ x, onCycle tasks x = true → x ∉ completed ++
          ((tasks.filter (fun t => !(completed.contains t.name))).filter
            (taskReady completed)).map (·.name) := by
        intro x hx hmem
        rcases List.mem_append.mp hmem with hc | hm
        · exact hnc x hx hc
        · obtain ⟨t, ht, htn⟩ := List.mem_map.mp hm
          have htasks := hreadytasks t ht
          have hreadyt := (List.mem_filter.mp ht).2
          rw [taskReady, List.all_eq_true] at hreadyt
          -- unfold one step of the cycle through t
          have hx' : reachesIn tasks tasks.length x x = true := hx
          cases hlen0 : tasks.length with
          | zero =>
            rw [hlen0, reachesIn] at hx'
            exact Bool.noConfusion hx'
          | succ k =>
            rw [hlen0, reachesIn, List.any_eq_true] at hx'
            obtain ⟨d, hd, hdisj⟩ := hx'
            have hdeps : depsOf tasks x = t.dependencies := by
              rw [← htn]
              exact depsOf_eq hnodup htasks
            rw [hdeps] at hd
            have hdc : d ∈ completed := contains_iff_mem.mp (hreadyt d hd)
            rw [Bool.or_eq_true, decide_eq_true_eq] at hdisj
            rcases hdisj with hdx | hreach
            · exact hnc x hx (hdx ▸ hdc)
            · exact hnc x hx (reach_mem_closed hcc k hdc hreach)
      have hspec := ih _ hlt (completed ++ ((tasks.filter
          (fun t => !(completed.contains t.name))).filter
            (taskReady completed)).map (·.name))
        (timings ++ ((tasks.filter (fun t => !(completed.contains t.name))).filter
          (taskReady completed)).map (fun t => "task:" ++ t.name) ++
          ["layer:" ++ String.intercalate "+"
            (((tasks.filter (fun t => !(completed.contains t.name))).filter
              (taskReady completed)).map (·.name))])
        (starts ++ ((tasks.filter (fun t => !(completed.contains t.name))).filter
          (taskReady completed)).map fun t => (t.name, completed)) rfl hcc' hnc'
      obtain ⟨ns, herr, hns, hsub⟩ := hspec
      rw [← hremeq] at herr hns
      rw [hstep]
      exact ⟨ns, herr, hns, hsub⟩

theorem run_eq_aux (registry : TaskRegistry) :
    run_task_graph registry =
      runTaskGraphAux (registry.tasks.filter
        (fun t => !(([] : List String).contains t.name))) [] [] [] := by
  rw [run_task_graph]
  congr 1
  exact (List.filter_eq_self.mpr fun t _ => rfl).symm

theorem run_task_graph_success_spec {registry : TaskRegistry}
    (hnodup : namesNodup registry.tasks) (hclosed : depsClosed registry.tasks)
    (hacyc : hasCycle registry.tasks = false)
    (hok : ∀ t ∈ registry.tasks, t.outcome = none) :
    SuccessSpec registry.tasks [] [] [] (run_task_graph registry) := by
  have hspec := runAux_success hnodup hclosed hacyc hok
    ((registry.tasks.filter (fun t => !(([] : List String).contains t.name))).length)
    [] [] [] rfl (fun n hn => absurd hn (List.not_mem_nil n))
  rw [← run_eq_aux] at hspec
  exact hspec

theorem filter_not_contains_nil (tasks : List TaskDefinition) :
    tasks.filter (fun t => !(([] : List String).contains t.name)) = tasks :=
  List.filter_eq_self.mpr fun t _ => rfl

/-- **C1.** For every registry with pairwise-distinct task names, an
acyclic dependency graph, dependencies naming only registered tasks, and a
context in which every task body returns normally, `run_task_graph`
returns without error, records exactly one `task:<name>` timing and
exactly one start event per registered task, completes exactly the
registered names, and dispatches a task only when every one of its
dependencies is already in the completed set. -/
theorem run_task_graph_each_task_once (registry : TaskRegistry)
    (hnodup : namesNodup registry.tasks) (hclosed : depsClosed registry.tasks)
    (hacyc : hasCycle registry.tasks = false)
    (hok : ∀ t ∈ registry.tasks, t.outcome = none) :
    (run_task_graph registry).error = none ∧
    (∀ t ∈ registry.tasks,
      (run_task_graph registry).timings.count ("task:" ++ t.name) = 1) ∧
    (∀ t ∈ registry.tasks,
      ((run_task_graph registry).starts.map Prod.fst).count t.name = 1) ∧
    (∀ x, x ∈ (run_task_graph registry).completed ↔
      x ∈ registry.tasks.map (·.name)) ∧
    (∀ p ∈ (run_task_graph registry).starts,
      ∃ t ∈ registry.tasks, t.name = p.1 ∧ ∀ d ∈ t.dependencies, d ∈ p.2) := by
  obtain ⟨e1, e2, e3, e4, e5⟩ :=
    run_task_graph_success_spec hnodup hclosed hacyc hok
  rw [filter_not_contains_nil] at e2 e3 e4
  refine ⟨e1, ?_, ?_, ?_, ?_⟩
  · intro t ht
    rw [e2 t.name]
    simp [List.mem_map_of_mem (·.name) ht]
  · intro t ht
    rw [e3 t.name]
    simp [List.mem_map_of_mem (·.name) ht]
  · intro x
    rw [e4 x]
    simp
  · intro p hp
    rcases e5 p hp with h | h
    · exact absurd h (List.not_mem_nil p)
    · exact h

/-- The diamond registry A; B, C after A; D after B and C, every body
succeeding. -/
def regDiamond : TaskRegistry :=
  ⟨[⟨"A", [], none⟩, ⟨"B", ["A"], none⟩, ⟨"C", ["A"], none⟩, ⟨"D", ["B", "C"], none⟩]⟩

/-- Witness for `run_task_graph_each_task_once` at the diamond registry. -/
theorem run_task_graph_each_task_once_witness :
    (run_task_graph regDiamond).error = none ∧
    (∀ t ∈ regDiamond.tasks,
      (run_task_graph regDiamond).timings.count ("task:" ++ t.name) = 1) ∧
    (∀ t ∈ regDiamond.tasks,
      ((run_task_graph regDiamond).starts.map Prod.fst).count t.name = 1) ∧
    (∀ x, x ∈ (run_task_graph regDiamond).completed ↔
      x ∈ regDiamond.tasks.map (·.name)) ∧
    (∀ p ∈ (run_task_graph regDiamond).starts,
      ∃ t ∈ regDiamond.tasks, t.name = p.1 ∧ ∀ d ∈ t.dependencies, d ∈ p.2) :=
  run_task_graph_each_task_once regDiamond (by unfold namesNodup; decide)
    (by unfold depsClosed; decide) (by decide) (by decide)

/-- **C2 (amended).** If some task of an acyclic, closed, duplicate-free
registry fails, the run raises the exception of a single registered
failing task (`asyncio.gather` without `return_exceptions` propagates
exactly one; the siblings' errors are not collected), the failing task was
started but never completed, and no task depending on it is ever started.
The final conjunct pins down exactly which tasks start: a registered task
is started if and only if all its dependencies lie in the final completed
set.  Its forward direction says no task of any subsequent layer is
started (the failing layer is never marked completed, so anything at or
past the next layer has an uncompleted dependency); its backward
direction says every task of the failing layer — the failing task and all
its ready siblings — is started. -/
theorem run_task_graph_failure_propagation (registry : TaskRegistry)
    (hnodup : namesNodup registry.tasks) (hclosed : depsClosed registry.tasks)
    (hacyc : hasCycle registry.tasks = false)
    (hfail : ∃ t ∈ registry.tasks, t.outcome ≠ none) :
    ∃ n msg,
      (run_task_graph registry).error = some (.taskFailure n msg) ∧
      (∃ t ∈ registry.tasks, t.name = n ∧ t.outcome = some msg) ∧
      surfacedErrors (run_task_graph registry) = [msg] ∧
      n ∈ (run_task_graph registry).starts.map Prod.fst ∧
      n ∉ (run_task_graph registry).completed ∧
      (∀ t' ∈ registry.tasks, n ∈ t'.dependencies →
        t'.name ∉ (run_task_graph registry).starts.map Prod.fst) ∧
      (∀ t ∈ registry.tasks,
        (t.name ∈ (run_task_graph registry).starts.map Prod.fst ↔
          ∀ d ∈ t.dependencies, d ∈ (run_task_graph registry).completed)) := by
  have hspec := runAux_fail hnodup hclosed hacyc
    ((registry.tasks.filter (fun t => !(([] : List String).contains t.name))).length)
    [] [] [] rfl (fun n hn => absurd hn (List.not_mem_nil n))
    (by rw [filter_not_contains_nil]; exact hfail)
  obtain ⟨hsub, hiff, n, msg, herr, hreg, hstart, hncomp, hstarts⟩ := hspec
  rw [← run_eq_aux] at hiff herr hstart hncomp hstarts
  refine ⟨n, msg, herr, hreg, ?_, hstart, hncomp, ?_, ?_⟩
  · simp only [surfacedErrors]
    rw [herr]
  · intro t' ht' hdep hmem
    obtain ⟨p, hp, hpn⟩ := List.mem_map.mp hmem
    rcases hstarts p hp with hin | ⟨t'', ht'', ht''n, hdeps, hsubc⟩
    · exact absurd hin (List.not_mem_nil p)
    · have heq : t'' = t' := eq_of_name_eq hnodup ht'' ht' (by rw [ht''n, hpn])
      subst heq
      exact hncomp (hsubc n (hdeps n hdep))
  · intro t ht
    simpa using hiff t ht

/-- A single layer with two independently failing tasks. -/
def regTwoFailures : TaskRegistry :=
  ⟨[⟨"t1", [], some "boom1"⟩, ⟨"t2", [], some "boom2"⟩]⟩

/-- Witness for `run_task_graph_failure_propagation` at a concrete
failing registry. -/
theorem run_task_graph_failure_propagation_witness :
    ∃ n msg,
      (run_task_graph regTwoFailures).error = some (.taskFailure n msg) ∧
      (∃ t ∈ regTwoFailures.tasks, t.name = n ∧ t.outcome = some msg) ∧
      surfacedErrors (run_task_graph regTwoFailures) = [msg] ∧
      n ∈ (run_task_graph regTwoFailures).starts.map Prod.fst ∧
      n ∉ (run_task_graph regTwoFailures).completed ∧
      (∀ t' ∈ regTwoFailures.tasks, n ∈ t'.dependencies →
        t'.name ∉ (run_task_graph regTwoFailures).starts.map Prod.fst) ∧
      (∀ t ∈ regTwoFailures.tasks,
        (t.name ∈ (run_task_graph regTwoFailures).starts.map Prod.fst ↔
          ∀ d ∈ t.dependencies, d ∈ (run_task_graph regTwoFailures).completed)) :=
  run_task_graph_failure_propagation regTwoFailures (by unfold namesNodup; decide)
    (by unfold depsClosed; decide) (by decide) (by decide)

/-- **C2, counterexample to the claim as stated.**  Both tasks of the
single layer fail; `t2` runs in the same layer (it is started), yet only
`t1`'s error surfaces: `"boom2"` is collected nowhere, refuting "the other
in-flight tasks … have their errors collected as well". -/
theorem run_task_graph_failure_collection_counterexample :
    (run_task_graph regTwoFailures).error =
        some (.taskFailure "t1" "boom1") ∧
    "t2" ∈ (run_task_graph regTwoFailures).starts.map Prod.fst ∧
    (∃ t ∈ regTwoFailures.tasks, t.name = "t2" ∧ t.outcome = some "boom2") ∧
    "boom2" ∉ surfacedErrors (run_task_graph regTwoFailures) := by
  refine ⟨?_, ?_, ?_, ?_⟩
  · simp [run_task_graph, TaskRegistry.tasks, regTwoFailures, runTaskGraphAux, taskReady,
      firstFailure]
  · simp [run_task_graph, TaskRegistry.tasks, regTwoFailures, runTaskGraphAux, taskReady,
      firstFailure]
  · exact ⟨⟨"t2", [], some "boom2"⟩, by simp [regTwoFailures, TaskRegistry.tasks], rfl, rfl⟩
  · simp [run_task_graph, TaskRegistry.tasks, regTwoFailures, runTaskGraphAux, taskReady,
      firstFailure, surfacedErrors]

/-- **C4 (amended).** For every duplicate-free registry containing a
dependency cycle, in a context where task bodies succeed, the scheduler
fails with the `Dependency cycle detected` error, and the names it lists
are exactly the registered tasks that never completed — a superset of the
names lying on cycles, not only the cycle's strongly connected
component. -/
theorem run_task_graph_cycle_diag (registry : TaskRegistry)
    (hnodup : namesNodup registry.tasks)
    (hok : ∀ t ∈ registry.tasks, t.outcome = none)
    (hcyc : hasCycle registry.tasks = true) :
    ∃ ns, (run_task_graph registry).error = some (.cycle ns) ∧
      ns = (registry.tasks.filter
        (fun t => !((run_task_graph registry).completed.contains t.name))).map
          (·.name) ∧
      (∀ x, onCycle registry.tasks x = true → x ∈ ns) ∧
      (∀ x ∈ ns, x ∈ registry.tasks.map (·.name)) := by
  have hspec := runAux_cycle hnodup hok hcyc
    ((registry.tasks.filter (fun t => !(([] : List String).contains t.name))).length)
    [] [] [] rfl (fun n hn => absurd hn (List.not_mem_nil n))
    (fun x _ hx => absurd hx (List.not_mem_nil x))
  obtain ⟨ns, herr, hns, hsub⟩ := hspec
  rw [← run_eq_aux] at herr hns
  refine ⟨ns, herr, hns, hsub, ?_⟩
  intro x hx
  rw [hns] at hx
  obtain ⟨t, ht, htn⟩ := List.mem_map.mp hx
  rw [← htn]
  exact List.mem_map_of_mem _ (List.mem_filter.mp ht).1

/-- `a ↔ b` cycle plus a task `c` that merely depends on the cycle. -/
def regCycleExtra : TaskRegistry :=
  ⟨[⟨"a", ["b"], none⟩, ⟨"b", ["a"], none⟩, ⟨"c", ["a"], none⟩]⟩

/-- Witness for `run_task_graph_cycle_diag` at the concrete cyclic
registry. -/
theorem run_task_graph_cycle_diag_witness :
    ∃ ns, (run_task_graph regCycleExtra).error = some (.cycle ns) ∧
      ns = (regCycleExtra.tasks.filter
        (fun t => !((run_task_graph regCycleExtra).completed.contains t.name))).map
          (·.name) ∧
      (∀ x, onCycle regCycleExtra.tasks x = true → x ∈ ns) ∧
      (∀ x ∈ ns, x ∈ regCycleExtra.tasks.map (·.name)) :=
  run_task_graph_cycle_diag regCycleExtra (by unfold namesNodup; decide) (by decide)
    (by decide)

/-- **C4, counterexample to the claim as stated.**  The error lists
`["a", "b", "c"]`, but `c` lies on no cycle: it is not in the strongly
connected component of the cycle `{a, b}`, so the listed names are not
"exactly the cycle's strongly connected component". -/
theorem run_task_graph_cycle_scc_counterexample :
    (run_task_graph regCycleExtra).error = some (.cycle ["a", "b", "c"]) ∧
    onCycle regCycleExtra.tasks "c" = false ∧
    "c" ∈ ["a", "b", "c"] := by
  refine ⟨?_, by decide, by decide⟩
  simp [run_task_graph, TaskRegistry.tasks, regCycleExtra, runTaskGraphAux, taskReady]

/-- `run_task_graph` with the registry object threaded through: the
scheduler reads only the fresh copy `registry.tasks` (Python's
`dict(self._tasks)`), and nothing in the loop writes back — the pops hit
the copy — so the registry component passes through unchanged. -/
def run_task_graph_world (registry : TaskRegistry) : TaskRegistry × RunGraphResult :=
  (registry, run_task_graph registry)

/-- **C10.** `run_task_graph` never mutates its registry, for every
registry — including those whose runs fail on a task error or a
dependency cycle: the registry after a run is the one before it, so it
still holds exactly the tasks registered before the run; the run is a
function of the copied `tasks` value alone (so concurrent per-preset runs
over the same registry all see the full task set and agree); rerunning
over the post-run registry gives the same result; and whenever the
registry is duplicate-free, closed, acyclic and every task body succeeds,
both the first and the repeated run schedule every registered task
exactly once. -/
theorem run_task_graph_registry_unchanged (registry : TaskRegistry) :
    (run_task_graph_world registry).1 = registry ∧
    ((run_task_graph_world registry).1).tasks = registry.tasks ∧
    (∀ r₁ r₂ : TaskRegistry, r₁.tasks = r₂.tasks →
      run_task_graph r₁ = run_task_graph r₂) ∧
    run_task_graph (run_task_graph_world registry).1 = run_task_graph registry ∧
    ((namesNodup registry.tasks ∧ depsClosed registry.tasks ∧
        hasCycle registry.tasks = false ∧ ∀ t ∈ registry.tasks, t.outcome = none) →
      (∀ t ∈ registry.tasks,
        (run_task_graph (run_task_graph_world registry).1).timings.count
          ("task:" ++ t.name) = 1) ∧
      (∀ t ∈ registry.tasks,
        (run_task_graph registry).timings.count ("task:" ++ t.name) = 1)) := by
  refine ⟨rfl, rfl, fun r₁ r₂ h => by rw [run_task_graph, run_task_graph, h], rfl, ?_⟩
  rintro ⟨hnodup, hclosed, hacyc, hok⟩
  obtain ⟨_, e2, _, _, _⟩ := run_task_graph_success_spec hnodup hclosed hacyc hok
  rw [filter_not_contains_nil] at e2
  have hcount : ∀ t ∈ registry.tasks,
      (run_task_graph registry).timings.count ("task:" ++ t.name) = 1 := by
    intro t ht
    rw [e2 t.name]
    simp [List.mem_map_of_mem (·.name) ht]
  exact ⟨hcount, hcount⟩

/-- Witness for `run_task_graph_registry_unchanged` at the diamond
registry, with the success-context antecedent of the final conjunct
discharged there. -/
theorem run_task_graph_registry_unchanged_witness :
    (run_task_graph_world regDiamond).1 = regDiamond ∧
    ((run_task_graph_world regDiamond).1).tasks = regDiamond.tasks ∧
    (∀ r₁ r₂ : TaskRegistry, r₁.tasks = r₂.tasks →
      run_task_graph r₁ = run_task_graph r₂) ∧
    run_task_graph (run_task_graph_world regDiamond).1 = run_task_graph regDiamond ∧
    (∀ t ∈ regDiamond.tasks,
      (run_task_graph (run_task_graph_world regDiamond).1).timings.count
        ("task:" ++ t.name) = 1) ∧
    (∀ t ∈ regDiamond.tasks,
      (run_task_graph regDiamond).timings.count ("task:" ++ t.name) = 1) :=
  ⟨(run_task_graph_registry_unchanged regDiamond).1,
    (run_task_graph_registry_unchanged regDiamond).2.1,
    (run_task_graph_registry_unchanged regDiamond).2.2.1,
    (run_task_graph_registry_unchanged regDiamond).2.2.2.1,
    ((run_task_graph_registry_unchanged regDiamond).2.2.2.2
      ⟨by unfold namesNodup; decide, by unfold depsClosed; decide,
        by decide, by decide⟩).1,
    ((run_task_graph_registry_unchanged regDiamond).2.2.2.2
      ⟨by unfold namesNodup; decide, by unfold depsClosed; decide,
        by decide, by decide⟩).2⟩

theorem attemptLoop_response {outcomes : Nat → AttemptOutcome} {d : ℚ} {mr a : Nat}
    {delays : List ℚ} {status : Nat} {lines : List StreamLine}
    (ha : a < mr) (ho : outcomes a = .response status lines) :
    attemptLoop outcomes d mr a delays = (.ok (status, lines), delays) := by
  rw [attemptLoop, if_pos ha, ho]

theorem attemptLoop_transient {outcomes : Nat → AttemptOutcome} {d : ℚ} {mr a : Nat}
    {delays : List ℚ} {c : Nat}
    (ha : a < mr) (ho : outcomes a = .httpError c)
    (hc : c ∈ TRANSIENT_HTTP_CODES) (ha2 : a < mr - 1) :
    attemptLoop outcomes d mr a delays =
      attemptLoop outcomes d mr (a + 1) (delays ++ [d * 2 ^ a]) := by
  rw [attemptLoop, if_pos ha, ho]
  exact if_pos ⟨hc, ha2⟩

theorem attemptLoop_nontransient {outcomes : Nat → AttemptOutcome} {d : ℚ} {mr a : Nat}
    {delays : List ℚ} {c : Nat}
    (ha : a < mr) (ho : outcomes a = .httpError c)
    (hc : ¬(c ∈ TRANSIENT_HTTP_CODES ∧ a < mr - 1)) :
    attemptLoop outcomes d mr a delays =
      (.error ("exec service request failed: HTTP " ++ toString c), delays) := by
  rw [attemptLoop, if_pos ha, ho]
  exact if_neg hc

theorem attemptLoop_urlError {outcomes : Nat → AttemptOutcome} {d : ℚ} {mr a : Nat}
    {delays : List ℚ} {msg : String}
    (ha : a < mr) (ho : outcomes a = .urlError msg) :
    attemptLoop outcomes d mr a delays =
      (.error ("exec service request failed: " ++ msg), delays) := by
  rw [attemptLoop, if_pos ha, ho]

theorem run_sync_request (label : String) (command : Command) (timeout : Option ℚ)
    (outcomes : Nat → AttemptOutcome) (mr : Nat) (d : ℚ) :
    (HttpExecClient_run_sync label command timeout outcomes mr d).request =
      mkExecRequest command timeout := by
  rw [HttpExecClient_run_sync]
  rcases h : attemptLoop outcomes d mr 0 [] with ⟨r, delays⟩
  rcases r with e | ⟨status, lines⟩
  · rfl
  · show (if status ≠ 200 then _ else _ : RunSyncResult).request = _
    split
    · rfl
    · rfl

theorem run_sync_delays (label : String) (command : Command) (timeout : Option ℚ)
    (outcomes : Nat → AttemptOutcome) (mr : Nat) (d : ℚ) :
    (HttpExecClient_run_sync label command timeout outcomes mr d).delays =
      (attemptLoop outcomes d mr 0 []).2 := by
  rw [HttpExecClient_run_sync]
  rcases h : attemptLoop outcomes d mr 0 [] with ⟨r, delays⟩
  rcases r with e | ⟨status, lines⟩
  · rfl
  · show (if status ≠ 200 then _ else _ : RunSyncResult).delays = _
    split
    · rfl
    · rfl

theorem run_sync_error_of_attempt {label : String} {command : Command}
    {timeout : Option ℚ} {outcomes : Nat → AttemptOutcome} {mr : Nat} {d : ℚ}
    {e : String} {delays : List ℚ}
    (h : attemptLoop outcomes d mr 0 [] = (.error e, delays)) :
    (HttpExecClient_run_sync label command timeout outcomes mr d).result = .error e ∧
      (HttpExecClient_run_sync label command timeout outcomes mr d).delays = delays := by
  rw [HttpExecClient_run_sync, h]
  exact ⟨rfl, rfl⟩

/-- **C9 (amended).** With an explicit timeout `T`, the request payload
carries `timeout_ms = max(int(T · 1000), 1)` and the HTTP read timeout is
`max(T + 5, 30)` seconds — which equals `T + 5` exactly when `T ≥ 25`. -/
theorem exec_timeout_config (label : String) (command : Command) (T : ℚ)
    (outcomes : Nat → AttemptOutcome) (mr : Nat) (d : ℚ) :
    (HttpExecClient_run_sync label command (some T) outcomes mr d).request.timeout_ms =
      some (max (pyInt (T * 1000)) 1) ∧
    (HttpExecClient_run_sync label command (some T) outcomes mr d).request.request_timeout =
      some (max (T + 5) 30) ∧
    (25 ≤ T →
      (HttpExecClient_run_sync label command (some T) outcomes
        mr d).request.request_timeout = some (T + 5)) := by
  rw [run_sync_request]
  refine ⟨rfl, rfl, ?_⟩
  intro hT
  simp only [mkExecRequest, Option.map_some']
  congr 1
  exact max_eq_left (by linarith)

/-- Witness for `exec_timeout_config` at `T = 40` (discharging the
`25 ≤ T` hypothesis of the exactness conjunct). -/
theorem exec_timeout_config_witness :
    (25 : ℚ) ≤ 40 ∧
      (HttpExecClient_run_sync "lbl" (.shell "true") (some 40)
        (fun _ => .urlError "conn") 3 1).request.request_timeout = some (40 + 5) :=
  ⟨by norm_num,
    (exec_timeout_config "lbl" (.shell "true") 40 (fun _ => .urlError "conn") 3 1).2.2
      (by norm_num)⟩

/-- **C9, counterexample to the claim as stated.**  At `T = 10` the HTTP
read timeout is `max(15, 30) = 30`, not "exactly T + 5 = 15"; and at
`T = 1/10000` the payload carries `timeout_ms = 1`, not `int(T · 1000) = 0`
milliseconds. -/
theorem exec_timeout_config_counterexample :
    (HttpExecClient_run_sync "lbl" (.shell "true") (some 10)
        (fun _ => .urlError "conn") 3 1).request.request_timeout ≠
      some ((10 : ℚ) + 5) ∧
    (HttpExecClient_run_sync "lbl" (.shell "true") (some (1/10000))
        (fun _ => .urlError "conn") 3 1).request.timeout_ms ≠
      some (pyInt ((1/10000) * 1000)) := by
  rw [run_sync_request, run_sync_request]
  constructor
  · simp only [mkExecRequest, Option.map_some']
    intro h
    have h' : max ((10 : ℚ) + 5) 30 = 10 + 5 := Option.some.inj h
    have : max ((10 : ℚ) + 5) 30 = 30 := max_eq_right (by norm_num)
    rw [this] at h'
    norm_num at h'
  · simp only [mkExecRequest, Option.map_some']
    intro h
    have h' := Option.some.inj h
    have h1 : pyInt ((1 / 10000 : ℚ) * 1000) = 0 := by
      norm_num [pyInt]
      decide
    rw [h1] at h'
    norm_num at h'

/-- **C5.** With the default budget of 3 attempts: a first-attempt HTTP
error outside {502, 503, 504} or a connection error fails immediately with
no back-off sleep; transient codes retry with sleeps
`initial_delay · 2^attempt`; three transient failures surface the failure
after exactly the two sleeps `d·2⁰, d·2¹`; and a response on attempt
`j < 3` after transient failures stops the loop after exactly the sleeps
`d·2⁰ … d·2^(j-1)`. -/
theorem exec_retry_policy (label : String) (command : Command) (timeout : Option ℚ)
    (d : ℚ) (outcomes : Nat → AttemptOutcome) :
    (∀ c, outcomes 0 = .httpError c → c ∉ TRANSIENT_HTTP_CODES →
      (HttpExecClient_run_sync label command timeout outcomes 3 d).result =
        .error ("exec service request failed: HTTP " ++ toString c) ∧
      (HttpExecClient_run_sync label command timeout outcomes 3 d).delays = []) ∧
    (∀ msg, outcomes 0 = .urlError msg →
      (HttpExecClient_run_sync label command timeout outcomes 3 d).result =
        .error ("exec service request failed: " ++ msg) ∧
      (HttpExecClient_run_sync label command timeout outcomes 3 d).delays = []) ∧
    ((∀ i, i < 3 → ∃ c ∈ TRANSIENT_HTTP_CODES, outcomes i = .httpError c) →
      (∃ e, (HttpExecClient_run_sync label command timeout outcomes 3 d).result =
        .error e) ∧
      (HttpExecClient_run_sync label command timeout outcomes 3 d).delays =
        [d * 2 ^ 0, d * 2 ^ 1]) ∧
    (∀ j status lines, j < 3 →
      (∀ i, i < j → ∃ c ∈ TRANSIENT_HTTP_CODES, outcomes i = .httpError c) →
      outcomes j = .response status lines →
      (HttpExecClient_run_sync label command timeout outcomes 3 d).delays =
        (List.range j).map fun i : Nat => d * 2 ^ i) := by
  refine ⟨?_, ?_, ?_, ?_⟩
  · intro c h0 hc
    exact run_sync_error_of_attempt
      (attemptLoop_nontransient (by norm_num) h0 (fun h => hc h.1))
  · intro msg h0
    exact run_sync_error_of_attempt (attemptLoop_urlError (by norm_num) h0)
  · intro h
    obtain ⟨c0, hc0, ho0⟩ := h 0 (by norm_num)
    obtain ⟨c1, hc1, ho1⟩ := h 1 (by norm_num)
    obtain ⟨c2, hc2, ho2⟩ := h 2 (by norm_num)
    have hL : attemptLoop outcomes d 3 0 [] =
        (.error ("exec service request failed: HTTP " ++ toString c2),
          [d * 2 ^ 0, d * 2 ^ 1]) := by
      rw [attemptLoop_transient (by norm_num) ho0 hc0 (by norm_num),
        attemptLoop_transient (by norm_num) ho1 hc1 (by norm_num),
        attemptLoop_nontransient (by norm_num) ho2 (fun h2 => by omega)]
      simp
    obtain ⟨hres, hdel⟩ := @run_sync_error_of_attempt label command timeout _ _ _ _ _ hL
    exact ⟨⟨_, hres⟩, hdel⟩
  · intro j status lines hj htrans hresp
    rw [run_sync_delays]
    match j, hj with
    | 0, _ =>
      rw [attemptLoop_response (by norm_num) hresp]
      simp
    | 1, _ =>
      obtain ⟨c0, hc0, ho0⟩ := htrans 0 (by norm_num)
      rw [attemptLoop_transient (by norm_num) ho0 hc0 (by norm_num),
        attemptLoop_response (by norm_num) hresp]
      simp [List.range_succ]
    | 2, _ =>
      obtain ⟨c0, hc0, ho0⟩ := htrans 0 (by norm_num)
      obtain ⟨c1, hc1, ho1⟩ := htrans 1 (by norm_num)
      rw [attemptLoop_transient (by norm_num) ho0 hc0 (by norm_num),
        attemptLoop_transient (by norm_num) ho1 hc1 (by norm_num),
        attemptLoop_response (by norm_num) hresp]
      simp [List.range_succ]

/-- Witness for `exec_retry_policy`: a server answering 400 fails at once
with no sleeps, and a server answering 503, 503, 200 is retried with
sleeps `1·2⁰ = 1` and `1·2¹ = 2`. -/
theorem exec_retry_policy_witness :
    ((fun _ => AttemptOutcome.httpError 400) 0 = AttemptOutcome.httpError 400) ∧
    (400 ∉ TRANSIENT_HTTP_CODES) ∧
    (HttpExecClient_run_sync "lbl" (.shell "true") none
        (fun _ => AttemptOutcome.httpError 400) 3 1).delays = [] ∧
    (HttpExecClient_run_sync "lbl" (.shell "true") none
        (fun i => if i < 2 then AttemptOutcome.httpError 503
          else AttemptOutcome.response 200 []) 3 1).delays =
      (List.range 2).map fun i : Nat => (1 : ℚ) * 2 ^ i :=
  ⟨rfl, by decide,
    ((exec_retry_policy "lbl" (.shell "true") none 1
        (fun _ => AttemptOutcome.httpError 400)).1 400 rfl (by decide)).2,
    (exec_retry_policy "lbl" (.shell "true") none 1
        (fun i => if i < 2 then AttemptOutcome.httpError 503
          else AttemptOutcome.response 200 [])).2.2.2 2 200 [] (by norm_num)
      (fun i hi => ⟨503, by decide, by simp [hi]⟩) (by simp)⟩

/-- The line is a protocol frame: either malformed JSON (`invalid`) or a
JSON object; a well-formed non-object line would make `event.get` raise. -/
def isEventFrame : StreamLine → Bool
  | .parsed _ (.obj _) => true
  | .parsed _ _ => false
  | .invalid _ => true

/-- The line is an `exit` frame. -/
def hasExitType : StreamLine → Bool
  | .parsed _ j =>
    match j.getKey "type" with
    | some (.str s) => s = "exit"
    | _ => false
  | .invalid _ => false

theorem processLine_preserves {label : String} {st : StreamState} {l : StreamLine}
    (hframe : isEventFrame l = true) (hnoex : hasExitType l = false)
    (he : st.exit_code = none) (hc : st.crashed = false) :
    (processStreamLine label st l).exit_code = none ∧
      (processStreamLine label st l).crashed = false := by
  rcases l with ⟨raw, j⟩ | raw
  · rcases j with _ | b | n | s | xs | kvs <;> simp [isEventFrame] at hframe
    rw [processStreamLine]
    rw [hc]
    simp only [Bool.false_eq_true, if_false]
    rcases hk : (JValue.obj kvs).getKey "type" with _ | v
    · simp [hk, he, hc]
    · rcases v with _ | b' | n' | s' | xs' | kvs' <;> simp [hk, he, hc]
      by_cases hs : s' = "stdout"
      · simp [hs, he, hc]
      · by_cases hs2 : s' = "stderr"
        · simp [hs2, he, hc]
        · by_cases hs3 : s' = "exit"
          · exfalso
            rw [hasExitType] at hnoex
            rw [hk, hs3] at hnoex
            simp at hnoex
          · by_cases hs4 : s' = "error"
            · simp [hs4, he, hc]
            · simp [hs, hs2, hs3, hs4, he, hc]
  · simp [processStreamLine, hc, he]

theorem foldl_no_exit {label : String} {lines : List StreamLine}
    (hframes : ∀ l ∈ lines, isEventFrame l = true)
    (hnoexit : ∀ l ∈ lines, hasExitType l = false) :
    ∀ st : StreamState, st.exit_code = none → st.crashed = false →
      (lines.foldl (processStreamLine label) st).exit_code = none ∧
        (lines.foldl (processStreamLine label) st).crashed = false := by
  induction lines with
  | nil => exact fun st he hc => ⟨he, hc⟩
  | cons l ls ih =>
    intro st he hc
    rw [List.foldl_cons]
    obtain ⟨he', hc'⟩ := @processLine_preserves label st l
      (hframes l (by simp)) (hnoexit l (by simp)) he hc
    exact ih (fun x hx => hframes x (List.mem_cons_of_mem l hx))
      (fun x hx => hnoexit x (List.mem_cons_of_mem l hx)) _ he' hc'

/-- **C6.** A 200 response whose event stream ends without an `exit` frame
yields a successful `ExecResult` with `exit_code = 0` (no exception), and
the warning line is recorded on the console. -/
theorem exec_missing_exit_is_success (label : String) (command : Command)
    (timeout : Option ℚ) (outcomes : Nat → AttemptOutcome) (d : ℚ)
    (lines : List StreamLine)
    (h0 : outcomes 0 = .response 200 lines)
    (hframes : ∀ l ∈ lines, isEventFrame l = true)
    (hnoexit : ∀ l ∈ lines, hasExitType l = false) :
    ∃ r, (HttpExecClient_run_sync label command timeout outcomes 3 d).result = .ok r ∧
      r.exit_code = 0 ∧
      ("[" ++ label ++ "] Warning: exec service did not report exit code, assuming success")
        ∈ (HttpExecClient_run_sync label command timeout outcomes 3 d).console := by
  have hL : attemptLoop outcomes d 3 0 [] = (.ok (200, lines), []) :=
    attemptLoop_response (by norm_num) h0
  obtain ⟨hnone, hcrash⟩ := @foldl_no_exit label lines hframes hnoexit
    initStreamState rfl rfl
  rw [HttpExecClient_run_sync, hL]
  simp only [ne_eq, not_true_eq_false, if_false, reduceIte]
  rw [finalizeStream, hcrash]
  simp only [Bool.false_eq_true, if_false]
  rw [hnone]
  refine ⟨_, rfl, rfl, ?_⟩
  simp

/-- Witness for `exec_missing_exit_is_success`: a stream carrying one
stdout frame and no exit frame. -/
theorem exec_missing_exit_is_success_witness :
    ((fun _ => AttemptOutcome.response 200
        [.parsed "l1" (.obj [("type", .str "stdout"), ("data", .str "ok")])]) 0 =
      AttemptOutcome.response 200
        [.parsed "l1" (.obj [("type", .str "stdout"), ("data", .str "ok")])]) ∧
    ∃ r, (HttpExecClient_run_sync "lbl" (.shell "true") none
        (fun _ => AttemptOutcome.response 200
          [.parsed "l1" (.obj [("type", .str "stdout"), ("data", .str "ok")])])
        3 1).result = .ok r ∧
      r.exit_code = 0 ∧
      ("[" ++ "lbl" ++ "] Warning: exec service did not report exit code, assuming success")
        ∈ (HttpExecClient_run_sync "lbl" (.shell "true") none
          (fun _ => AttemptOutcome.response 200
            [.parsed "l1" (.obj [("type", .str "stdout"), ("data", .str "ok")])])
          3 1).console :=
  ⟨rfl, exec_missing_exit_is_success "lbl" (.shell "true") none _ 1 _ rfl
    (by decide) (by decide)⟩
